import Mathlib

/-!
Shallow embedding of the crowd-pilot-serializer core (Rust) in Lean 4, and
proofs checking the natural-language specification's claims against it.

Layout: all definitions first (text helpers from `helpers.rs`, the line diff
engine from `diff.rs`, the Conversation State Manager from `conversation.rs`,
plus a handful of specification-side definitions and concrete runs used by
witnesses), then the lemmas and the claim theorems.

Modelling conventions:
- Rust `String`/`&str` is Lean `String`; operations are implemented over
  `List Char` (`String.data`) so every definition evaluates inside the kernel.
  Rust `char` is Lean `Char` (both are Unicode scalar values), and Rust's
  byte-oriented `len()` is `String.utf8ByteSize`.
- Machine integers (`usize`) are `Nat`; the Rust code only uses saturating or
  guarded arithmetic on them, which matches `Nat` subtraction.
- Fallible Rust code (`Result`) becomes `Except String`; a `.expect` panic is
  an `Except.error` that propagates.
- Functions the Rust side writes with unbounded loops or non-structural
  recursion are written with an explicit fuel argument that the wrapper sets
  to a provably sufficient value, so they stay kernel-reducible.
- `HashMap` is an association list updated in place (insertion order); where
  the Rust code iterates over `HashMap::keys()` (an unspecified order), the
  model iterates in the association list's order, and the order-dependence is
  analysed separately with an explicit enumeration parameter.
-/

deriving instance DecidableEq for Except

namespace CrowdPilot

/-! ## Text helpers (src/crates/core/src/helpers.rs) -/

/-- Rust `char::is_whitespace`: the Unicode White_Space property. -/
def rustIsWhitespace (c : Char) : Bool :=
  c.toNat ∈ [0x09, 0x0A, 0x0B, 0x0C, 0x0D, 0x20, 0x85, 0xA0, 0x1680,
    0x2000, 0x2001, 0x2002, 0x2003, 0x2004, 0x2005, 0x2006, 0x2007,
    0x2008, 0x2009, 0x200A, 0x2028, 0x2029, 0x202F, 0x205F, 0x3000]

/-- Rust `str::replace` (leftmost, non-overlapping) over char lists; the
pattern is non-empty (head `p`, tail `ps`).  `fuel` bounds the recursion and
is sufficient whenever it is at least the list length. -/
def listReplaceFuel (p : Char) (ps rep : List Char) : Nat → List Char → List Char
  | _, [] => []
  | 0, l => l
  | fuel + 1, c :: cs =>
      if (p :: ps).isPrefixOf (c :: cs) then
        rep ++ listReplaceFuel p ps rep fuel (cs.drop ps.length)
      else
        c :: listReplaceFuel p ps rep fuel cs

/-- Rust `str::replace` on strings, for a non-empty pattern. -/
def rustReplace (s pat rep : String) : String :=
  match pat.data with
  | [] => s
  | p :: ps => String.mk (listReplaceFuel p ps rep.data s.data.length s.data)

/-- The `text.replace("\\n", "\n").replace("\\r", "\r")` un-escaping the CSM
applies to event payloads. -/
def unescapeText (s : String) : String :=
  rustReplace (rustReplace s "\\n" "\n") "\\r" "\r"

/-- Drop trailing Rust-whitespace characters (Rust `str::trim_end`). -/
def trimEndChars (l : List Char) : List Char :=
  (l.reverse.dropWhile rustIsWhitespace).reverse

/-- Rust `str::trim`: drop leading and trailing whitespace. -/
def rustTrimChars (l : List Char) : List Char :=
  trimEndChars (l.dropWhile rustIsWhitespace)

/-- `clean_text`: normalize CRLF and lone CR to LF, then trim trailing
whitespace. -/
def clean_text (text : String) : String :=
  String.mk (trimEndChars
    ((rustReplace (rustReplace text "\r\n" "\n") "\r" "\n").data))

/-- `fenced_block`: a fenced code block with an optional language tag
(lowercased; the CSM only passes "bash"). -/
def fenced_block (language : Option String) (content : String) : String :=
  "```" ++ String.mk ((language.getD "").data.map Char.toLower) ++ "\n" ++
    content ++ "\n```\n"

/-- `apply_change`: translate escapes in `new_text`, pad with spaces when
`offset` exceeds the *byte* length of the content, then splice over
character (codepoint) indices, clamping `length` to what remains. -/
def apply_change (content : String) (offset length : Nat) (new_text : String) :
    String :=
  let text := unescapeText new_text
  let base :=
    if offset > content.utf8ByteSize then
      content ++ String.mk (List.replicate (offset - content.utf8ByteSize) ' ')
    else content
  let chars := base.data
  let safe_offset := min offset chars.length
  let safe_length := min length (chars.length - safe_offset)
  String.mk (chars.take safe_offset) ++ text ++
    String.mk (chars.drop (safe_offset + safe_length))

/-- `apply_backspaces` worker: the accumulator holds the output buffer in
reverse, `\x08` pops the most recent character. -/
def applyBackspacesAux : List Char → List Char → List Char
  | acc, [] => acc.reverse
  | acc, c :: cs =>
      if c = '\x08' then applyBackspacesAux acc.tail cs
      else applyBackspacesAux (c :: acc) cs

/-- `apply_backspaces`. -/
def apply_backspaces (s : String) : String :=
  String.mk (applyBackspacesAux [] s.data)

/-- Length (including the terminator) of the lazy tail of an OSC sequence:
the earliest `\x07` or `ESC \` terminator, scanning the text after `ESC ]`.
Models the regex `\x1b\][\s\S]*?(?:\x07|\x1b\\)`. -/
def oscFindEnd : List Char → Option Nat
  | [] => none
  | c :: cs =>
      if c = '\x07' then some 1
      else if c = '\x1b' ∧ cs.head? = some '\\' then some 2
      else (oscFindEnd cs).map (· + 1)

/-- Remove every terminated OSC sequence (`replace_all` with the regex
above); on an `ESC ]` with no terminator anywhere after it the match fails
and scanning resumes after the two heads. `fuel ≥ length` is sufficient. -/
def stripOscTerminatedFuel : Nat → List Char → List Char
  | 0, l => l
  | _ + 1, [] => []
  | fuel + 1, c :: cs =>
      if c = '\x1b' ∧ cs.head? = some ']' then
        match oscFindEnd cs.tail with
        | some k => stripOscTerminatedFuel fuel (cs.tail.drop k)
        | none => c :: ']' :: stripOscTerminatedFuel fuel cs.tail
      else c :: stripOscTerminatedFuel fuel cs

/-- Per-line unterminated-OSC fallback: the regex `\x1b\][^\n]*$` removes
everything from the first `ESC ]` to the end of the line. -/
def dropUnterminatedOsc : List Char → List Char
  | [] => []
  | c :: cs =>
      if c = '\x1b' ∧ cs.head? = some ']' then []
      else c :: dropUnterminatedOsc cs

/-- Split a char list on a separator character (Rust `str::split`): always at
least one (possibly empty) part. -/
def splitOnChar (sep : Char) : List Char → List (List Char)
  | [] => [[]]
  | c :: cs =>
      let r := splitOnChar sep cs
      if c = sep then [] :: r
      else (c :: r.headD []) :: r.tail

/-- Join parts with a separator character (Rust `Vec::join`). -/
def joinWithChar (sep : Char) : List (List Char) → List Char
  | [] => []
  | [p] => p
  | p :: ps => p ++ sep :: joinWithChar sep ps

/-- Resolve carriage returns within one LF-delimited segment: split on CR and
keep the last non-empty field, falling back to the last field. -/
def resolveCrSegment (seg : List Char) : List Char :=
  let parts := splitOnChar '\r' seg
  match parts.reverse.find? (fun p => !p.isEmpty) with
  | some p => p
  | none => parts.getLastD []

/-- CSI parameter class `[0-9;?]`. -/
def isCsiParam (c : Char) : Bool := ('0' ≤ c ∧ c ≤ '9') ∨ c = ';' ∨ c = '?'

/-- CSI intermediate class: space through `/` (0x20 to 0x2F). -/
def isCsiInter (c : Char) : Bool := ' ' ≤ c ∧ c ≤ '/'

/-- CSI final class `[@-~]`. -/
def isCsiFinal (c : Char) : Bool := '@' ≤ c ∧ c ≤ '~'

/-- Try to match the tail of the CSI regex, params then intermediates then
one final character (the text after
`ESC [`): returns the number of consumed characters.  The three classes are
pairwise disjoint, so greedy matching needs no backtracking. -/
def csiMatchLen (l : List Char) : Option Nat :=
  let rest1 := l.dropWhile isCsiParam
  let rest2 := rest1.dropWhile isCsiInter
  match rest2.head? with
  | some c => if isCsiFinal c then some (l.length - rest2.length + 1) else none
  | none => none

/-- Remove every CSI escape sequence (`replace_all` semantics: on a failed
match at an `ESC`, scanning resumes one character later).
`fuel ≥ length` is sufficient. -/
def stripCsiFuel : Nat → List Char → List Char
  | 0, l => l
  | _ + 1, [] => []
  | fuel + 1, c :: cs =>
      if c = '\x1b' ∧ cs.head? = some '[' then
        match csiMatchLen cs.tail with
        | some k => stripCsiFuel fuel (cs.tail.drop k)
        | none => c :: '[' :: stripCsiFuel fuel cs.tail
      else c :: stripCsiFuel fuel cs

/-- `normalize_terminal_output`: backspaces, OSC removal (terminated, then
per-line unterminated fallback), per-line CR resolution, CSI removal, BEL
removal. -/
def normalize_terminal_output (raw : String) : String :=
  if raw.isEmpty then raw
  else
    let s := applyBackspacesAux [] raw.data
    let s := stripOscTerminatedFuel s.length s
    let s := joinWithChar '\n' ((splitOnChar '\n' s).map dropUnterminatedOsc)
    let s := joinWithChar '\n' ((splitOnChar '\n' s).map resolveCrSegment)
    let s := stripCsiFuel s.length s
    let s := s.filter (fun c => c ≠ '\x07')
    String.mk s

/-- `format!("{:6}", idx)`: a 6-character right-justified line number. -/
def fmtLineNumber (n : Nat) : List Char :=
  let digits := (Nat.repr n).data
  List.replicate (6 - digits.length) ' ' ++ digits

/-- `line_numbered_output`: mimic `cat -n` over the clamped line range. -/
def line_numbered_output (content : String)
    (start_line end_line : Option Nat) : String :=
  let lines := splitOnChar '\n' content.data
  let total := if lines.length = 1 ∧ (lines.headD []).isEmpty then 0
    else lines.length
  if total = 0 then ""
  else
    let s := (start_line.map (fun l => min (max l 1) total)).getD 1
    let e := (end_line.map (fun l => min (max l 1) total)).getD total
    String.mk (joinWithChar '\n' ((List.range' s (e + 1 - s)).map
      (fun idx => fmtLineNumber idx ++ '\t' :: (lines.getD (idx - 1) []))))

/-- Viewport: 1-based inclusive line range; empty when `end' < start`. -/
structure Viewport where
  start : Nat
  end' : Nat
deriving DecidableEq

/-- `serialize_compute_viewport`. -/
def serialize_compute_viewport (total_lines center_line radius : Nat) :
    Viewport :=
  if total_lines = 0 then ⟨1, 0⟩
  else ⟨max (center_line - radius) 1, min (center_line + radius) total_lines⟩

/-- `escape_single_quotes_for_sed`: double backslashes, then replace each
single quote by the shell quote-switching sequence. -/
def escape_single_quotes_for_sed (text : String) : String :=
  rustReplace (rustReplace text "\\" "\\\\") "'" "'\"'\"'"

/-- The composition of Rust's `floor_char_boundary` with byte slicing: the
number of leading characters of the list whose UTF-8 sizes fit within `i`
bytes.  (`floor_char_boundary` returns the greatest boundary at most `i`,
and at least `len` when `i ≥ len`.) -/
def charsWithinBytes : List Char → Nat → Nat
  | [], _ => 0
  | c :: cs, i =>
      if c.utf8Size ≤ i then 1 + charsWithinBytes cs (i - c.utf8Size) else 0

/-- Strip a single trailing carriage return (the `\r` of a `\r\n` ending). -/
def stripCR1 (l : List Char) : List Char :=
  if l.getLast? = some '\r' then l.dropLast else l

/-- Rust `str::lines`: split on LF; a terminal LF creates no extra line, and
each LF-terminated segment loses one trailing CR.  A final unterminated
segment keeps its trailing CR. -/
def rustLines (s : String) : List String :=
  let parts := splitOnChar '\n' s.data
  let terminated := parts.dropLast.map stripCR1
  let last := parts.getLastD []
  (terminated ++ if last.isEmpty then [] else [last]).map String.mk

/-- `trim_end_matches('\n')`: drop trailing LF characters only. -/
def trimEndMatchesLF (l : List Char) : List Char :=
  (l.reverse.dropWhile (fun c => c = '\n')).reverse

/-! ## Line diff engine (src/crates/core/src/diff.rs)

A port of Python's difflib `SequenceMatcher` (autojunk = false), generic over
the element type; the Rust code instantiates it at `&str` lines. -/

/-- A matching block: `a[i : i+n] = b[j : j+n]`. -/
structure DiffMatch where
  i : Nat
  j : Nat
  n : Nat
deriving DecidableEq

/-- Opcode tag. -/
inductive OpcodeTag where
  | replace
  | delete
  | insert
  | equal
deriving DecidableEq

/-- An opcode `(tag, i1, i2, j1, j2)`: `i1:i2` in sequence `a`, `j1:j2` in
sequence `b`. -/
structure Opcode where
  tag : OpcodeTag
  i1 : Nat
  i2 : Nat
  j1 : Nat
  j2 : Nat
deriving DecidableEq

/-- The indices `j ∈ [blo, bhi)` with `b[j] = a[i]`, ascending: what the
`b2j` hash-map lookup plus the `continue`/`break` guards iterate over. -/
def matchIndices {α : Type} [DecidableEq α] (a b : List α) (i blo bhi : Nat) :
    List Nat :=
  (List.range' blo (bhi - blo)).filter (fun j => b.get? j = a.get? i)

/-- The running best match of `find_longest_match`. -/
structure FlmAcc where
  besti : Nat
  bestj : Nat
  bestsize : Nat
deriving DecidableEq

/-- One row of the `find_longest_match` dynamic program: fold over the `j`
candidates of row `i`, reading run lengths from the previous row's map
`j2len` (`j.wrapping_sub(1)` misses the map when `j = 0`), building the new
row's map, and recording a strictly better match when found. -/
def flmRow (i : Nat) (j2len : Nat → Nat) :
    List Nat → (Nat → Nat) → FlmAcc → ((Nat → Nat) × FlmAcc)
  | [], newj2len, acc => (newj2len, acc)
  | j :: js, newj2len, acc =>
      let k := (if j = 0 then 0 else j2len (j - 1)) + 1
      let newj2len' := fun x => if x = j then k else newj2len x
      let acc' := if k > acc.bestsize then ⟨i + 1 - k, j + 1 - k, k⟩ else acc
      flmRow i j2len js newj2len' acc'

/-- The outer loop of `find_longest_match` over the rows `i ∈ [alo, ahi)`;
each row starts from an empty `newj2len`. -/
def flmOuter {α : Type} [DecidableEq α] (a b : List α) (blo bhi : Nat) :
    List Nat → (Nat → Nat) → FlmAcc → FlmAcc
  | [], _, acc => acc
  | i :: is, j2len, acc =>
      let js := matchIndices a b i blo bhi
      let (newj2len, acc') := flmRow i j2len js (fun _ => 0) acc
      flmOuter a b blo bhi is newj2len acc'

/-- Extend the best match backwards while the preceding elements agree
(in-bounds, which the guard makes explicit).  `fuel ≥ besti` is sufficient. -/
def extendBackFuel {α : Type} [DecidableEq α] (a b : List α) (alo blo : Nat) :
    Nat → Nat → Nat → Nat → Nat × Nat × Nat
  | 0, besti, bestj, bestsize => (besti, bestj, bestsize)
  | fuel + 1, besti, bestj, bestsize =>
      if alo < besti ∧ blo < bestj ∧ (a.get? (besti - 1)).isSome ∧
          a.get? (besti - 1) = b.get? (bestj - 1) then
        extendBackFuel a b alo blo fuel (besti - 1) (bestj - 1) (bestsize + 1)
      else (besti, bestj, bestsize)

/-- Extend the best match forwards while the following elements agree.
`fuel ≥ ahi` is sufficient. -/
def extendFwdFuel {α : Type} [DecidableEq α] (a b : List α)
    (ahi bhi besti bestj : Nat) : Nat → Nat → Nat
  | 0, bestsize => bestsize
  | fuel + 1, bestsize =>
      if besti + bestsize < ahi ∧ bestj + bestsize < bhi ∧
          (a.get? (besti + bestsize)).isSome ∧
          a.get? (besti + bestsize) = b.get? (bestj + bestsize) then
        extendFwdFuel a b ahi bhi besti bestj fuel (bestsize + 1)
      else bestsize

/-- `find_longest_match` on the windows `a[alo:ahi]`, `b[blo:bhi]`. -/
def find_longest_match {α : Type} [DecidableEq α] (a b : List α)
    (alo ahi blo bhi : Nat) : DiffMatch :=
  let acc := flmOuter a b blo bhi (List.range' alo (ahi - alo))
    (fun _ => 0) ⟨alo, blo, 0⟩
  let r := extendBackFuel a b alo blo acc.besti acc.besti acc.bestj acc.bestsize
  let n := extendFwdFuel a b ahi bhi r.1 r.2.1 ahi r.2.2
  ⟨r.1, r.2.1, n⟩

/-- A sub-problem window `(alo, ahi, blo, bhi)`. -/
structure Window where
  alo : Nat
  ahi : Nat
  blo : Nat
  bhi : Nat
deriving DecidableEq

/-- The explicit work-stack loop of `get_matching_blocks` (the Rust queue is
popped from the back, so it is a stack; the head of the list is the top).
Each non-empty match is emitted and the two flanking sub-windows are pushed,
left first, so the right one is processed first.  `fuel` at least the sum
over the stack of `(ahi-alo) + (bhi-blo) + 1` is sufficient. -/
def processStackFuel {α : Type} [DecidableEq α] (a b : List α) :
    Nat → List Window → List DiffMatch
  | 0, _ => []
  | _ + 1, [] => []
  | fuel + 1, w :: rest =>
      let m := find_longest_match a b w.alo w.ahi w.blo w.bhi
      if m.n = 0 then processStackFuel a b fuel rest
      else
        let pushR := if m.i + m.n < w.ahi ∧ m.j + m.n < w.bhi then
          [Window.mk (m.i + m.n) w.ahi (m.j + m.n) w.bhi] else []
        let pushL := if w.alo < m.i ∧ w.blo < m.j then
          [Window.mk w.alo m.i w.blo m.j] else []
        m :: processStackFuel a b fuel (pushR ++ pushL ++ rest)

/-- The comparator of the Rust `sort_by`: lexicographic on `(i, j, n)`. -/
def blockLe (m1 m2 : DiffMatch) : Prop :=
  m1.i < m2.i ∨ (m1.i = m2.i ∧ (m1.j < m2.j ∨ (m1.j = m2.j ∧ m1.n ≤ m2.n)))

instance : DecidableRel blockLe := fun m1 m2 => by
  unfold blockLe; infer_instance

/-- Insert into a sorted block list (stable: passes over elements that
compare `≤`). -/
def insertBlock (x : DiffMatch) : List DiffMatch → List DiffMatch
  | [] => [x]
  | y :: ys => if blockLe y x then y :: insertBlock x ys else x :: y :: ys

/-- Stable insertion sort by `blockLe`: the model of the Rust stable
`sort_by` (the keys are pairwise distinct in every reachable call, so any
correct stable sort produces this list). -/
def sortBlocks : List DiffMatch → List DiffMatch
  | [] => []
  | x :: xs => insertBlock x (sortBlocks xs)

/-- Collapse adjacent abutting matching blocks, threading the current run
`(i1, j1, k1)` exactly as the Rust fold does (initial run `(0, 0, 0)`). -/
def collapseBlocks : List DiffMatch → Nat → Nat → Nat → List DiffMatch
  | [], i1, j1, k1 => if k1 > 0 then [⟨i1, j1, k1⟩] else []
  | m :: ms, i1, j1, k1 =>
      if i1 + k1 = m.i ∧ j1 + k1 = m.j then collapseBlocks ms i1 j1 (k1 + m.n)
      else if k1 > 0 then ⟨i1, j1, k1⟩ :: collapseBlocks ms m.i m.j m.n
      else collapseBlocks ms m.i m.j m.n

/-- `get_matching_blocks`: run the stack loop from the full window, sort by
`(i, j, n)`, collapse adjacent blocks, and append the `(la, lb, 0)`
sentinel. -/
def get_matching_blocks {α : Type} [DecidableEq α] (a b : List α) :
    List DiffMatch :=
  let raw := processStackFuel a b (a.length + b.length + 1)
    [⟨0, a.length, 0, b.length⟩]
  collapseBlocks (sortBlocks raw) 0 0 0 ++ [⟨a.length, b.length, 0⟩]

/-- The opcode-building loop of `get_opcodes`: walk the matching blocks with
the cursor `(i, j)`, emitting a gap opcode (replace/delete/insert) and then
an `equal` opcode for each non-empty block. -/
def opcodesLoop : List DiffMatch → Nat → Nat → List Opcode
  | [], _, _ => []
  | m :: ms, i, j =>
      (if i < m.i ∧ j < m.j then [⟨OpcodeTag.replace, i, m.i, j, m.j⟩]
       else if i < m.i then [⟨OpcodeTag.delete, i, m.i, j, m.j⟩]
       else if j < m.j then [⟨OpcodeTag.insert, i, m.i, j, m.j⟩]
       else []) ++
      (if m.n > 0 then [⟨OpcodeTag.equal, m.i, m.i + m.n, m.j, m.j + m.n⟩]
       else []) ++
      opcodesLoop ms (m.i + m.n) (m.j + m.n)

/-- `get_opcodes`. -/
def get_opcodes {α : Type} [DecidableEq α] (a b : List α) : List Opcode :=
  opcodesLoop (get_matching_blocks a b) 0 0

/-- A changed block in 1-based line coordinates plus the replacement lines. -/
structure ChangedBlock where
  start_before : Nat
  end_before : Nat
  start_after : Nat
  end_after : Nat
  replacement_lines : List String
deriving DecidableEq

/-- The `Err` message of `compute_changed_block_lines`. -/
def noOpcodesMsg : String :=
  "Opcode list cannot be empty! Likely a bug in the diff computation."

/-- `compute_changed_block_lines`: line-split both strings, filter the
non-`equal` opcodes, and read the outer changed interval off the first and
last one; errors when everything is equal. -/
def compute_changed_block_lines (before after : String) :
    Except String ChangedBlock :=
  let before_lines := rustLines before
  let after_lines := rustLines after
  let non_equal := (get_opcodes before_lines after_lines).filter
    (fun op => op.tag ≠ OpcodeTag.equal)
  match non_equal.head?, non_equal.getLast? with
  | some first, some last =>
      Except.ok
        { start_before := max (first.i1 + 1) 1
          end_before := last.i2
          start_after := max (first.j1 + 1) 1
          end_after := last.j2
          replacement_lines := (after_lines.drop first.j1).take
            (last.j2 - first.j1) }
  | _, _ => Except.error noOpcodesMsg

/-! ## Conversation State Manager (src/crates/core/src/conversation.rs) -/

/-- A single message; `from'` is the Rust field `from`
("Assistant" or "User"). -/
structure ConversationMessage where
  from' : String
  value : String
deriving DecidableEq

/-- `ConversationMessage::user`. -/
def ConversationMessage.user (value : String) : ConversationMessage :=
  ⟨"User", value⟩

/-- `ConversationMessage::assistant`. -/
def ConversationMessage.assistant (value : String) : ConversationMessage :=
  ⟨"Assistant", value⟩

/-- `ConversationStateManagerConfig`. -/
structure Config where
  viewport_radius : Nat
  coalesce_radius : Nat
  max_tokens_per_message : Nat
  max_tokens_per_terminal_output : Nat
  max_tokens_per_conversation : Option Nat
  min_conversation_messages : Nat
deriving DecidableEq

/-- The `Default` configuration of `ConversationStateManagerConfig`
(chunking off). -/
def defaultConfig : Config :=
  { viewport_radius := 10
    coalesce_radius := 5
    max_tokens_per_message := 2048
    max_tokens_per_terminal_output := 256
    max_tokens_per_conversation := none
    min_conversation_messages := 5 }

/-- The tokenizer capability: count tokens, truncate to a budget. -/
structure Tokenizer where
  count_tokens : String → Nat
  truncate_to_max_tokens : String → Nat → String

/-- The character-approximation tokenizer (`CharApproxTokenizer`): byte
length divided by 4; truncation keeps the first `max * 4` characters. -/
def charApproxTokenizer : Tokenizer :=
  { count_tokens := fun text => text.utf8ByteSize / 4
    truncate_to_max_tokens := fun text max_tokens =>
      String.mk (text.data.take (max_tokens * 4)) }

/-- A finalized conversation with its token count. -/
structure FinalizedConversation where
  messages : List ConversationMessage
  token_count : Nat
deriving DecidableEq

/-- Edit region (1-based inclusive line range of a pending burst). -/
structure EditRegion where
  start : Nat
  end' : Nat
deriving DecidableEq

/-- Association-list `get` (models `HashMap::get`). -/
def alGet {β : Type} (m : List (String × β)) (k : String) : Option β :=
  (m.find? (fun p => p.1 = k)).map (·.2)

/-- Association-list `insert` (models `HashMap::insert`: overwrite the
binding when the key is present, otherwise add it; keys stay unique). -/
def alInsert {β : Type} (m : List (String × β)) (k : String) (v : β) :
    List (String × β) :=
  if (m.find? (fun p => p.1 = k)).isSome then
    m.map (fun p => if p.1 = k then (k, v) else p)
  else m ++ [(k, v)]

/-- Set insert (models `HashSet::insert`; only membership and clearing are
ever observed). -/
def setInsert (l : List String) (k : String) : List String :=
  if l.contains k then l else k :: l

/-- The CSM state. -/
structure CSMState where
  messages : List ConversationMessage
  current_tokens : Nat
  finalized_conversations : List FinalizedConversation
  file_states : List (String × String)
  per_file_viewport : List (String × Option Viewport)
  files_opened_in_conversation : List String
  terminal_output_buffer : List String
  pending_edits_before : List (String × Option String)
  pending_edit_regions : List (String × Option EditRegion)
deriving DecidableEq

/-- `ConversationStateManager::new`: the empty state. -/
def newCSMState : CSMState :=
  { messages := []
    current_tokens := 0
    finalized_conversations := []
    file_states := []
    per_file_viewport := []
    files_opened_in_conversation := []
    terminal_output_buffer := []
    pending_edits_before := []
    pending_edit_regions := [] }

/-- `get_file_content`. -/
def get_file_content (s : CSMState) (file_path : String) : String :=
  (alGet s.file_states file_path).getD ""

/-- `finalize_current_conversation`: keep the chunk only when it is long
enough and has at least one User and one Assistant message; reset the token
counter and the captured-file set either way. -/
def finalize_current_conversation (cfg : Config) (s : CSMState) : CSMState :=
  if s.messages.isEmpty then s
  else
    let is_long_enough := s.messages.length ≥ cfg.min_conversation_messages
    let has_user := s.messages.any (fun m => m.from' = "User")
    let has_assistant := s.messages.any (fun m => m.from' = "Assistant")
    let s :=
      if is_long_enough ∧ has_user ∧ has_assistant then
        { s with
          finalized_conversations := s.finalized_conversations ++
            [⟨s.messages, s.current_tokens⟩]
          messages := [] }
      else { s with messages := [] }
    { s with current_tokens := 0, files_opened_in_conversation := [] }

/-- `append_message`: truncate over-budget messages (recording the capped
cost), roll the conversation over when chunking is on and the budget would
be crossed, then push. -/
def append_message (cfg : Config) (tok : Tokenizer)
    (message : ConversationMessage) (s : CSMState) : CSMState :=
  let tokens := tok.count_tokens message.value
  let p : ConversationMessage × Nat :=
    if tokens > cfg.max_tokens_per_message then
      (⟨message.from',
        tok.truncate_to_max_tokens message.value cfg.max_tokens_per_message⟩,
       cfg.max_tokens_per_message)
    else (message, tokens)
  let s :=
    match cfg.max_tokens_per_conversation with
    | some max_tokens =>
        if s.current_tokens + p.2 > max_tokens ∧ ¬ s.messages.isEmpty then
          finalize_current_conversation cfg s
        else s
    | none => s
  { s with messages := s.messages ++ [p.1],
           current_tokens := s.current_tokens + p.2 }

/-- `maybe_capture_file_contents`: emit the full `cat -n` pair once per file
per open chunk. -/
def maybe_capture_file_contents (cfg : Config) (tok : Tokenizer)
    (file_path : String) (content : String) (s : CSMState) : CSMState :=
  if s.files_opened_in_conversation.contains file_path then s
  else
    let cmd := "cat -n " ++ file_path
    let s := append_message cfg tok
      (ConversationMessage.assistant (fenced_block (some "bash")
        (clean_text cmd))) s
    let output := line_numbered_output content none none
    let s := append_message cfg tok
      (ConversationMessage.user ("<stdout>\n" ++ output ++ "\n</stdout>")) s
    { s with files_opened_in_conversation :=
        setInsert s.files_opened_in_conversation file_path }

/-- `flush_terminal_output_buffer`. -/
def flush_terminal_output_buffer (cfg : Config) (tok : Tokenizer)
    (s : CSMState) : CSMState :=
  if s.terminal_output_buffer.isEmpty then s
  else
    let aggregated := String.join s.terminal_output_buffer
    let out := normalize_terminal_output aggregated
    let cleaned := clean_text out
    let tokens := tok.count_tokens cleaned
    let cleaned :=
      if tokens > cfg.max_tokens_per_terminal_output then
        tok.truncate_to_max_tokens cleaned cfg.max_tokens_per_terminal_output
          ++ "\n... [truncated]"
      else cleaned
    let s :=
      if ¬ (rustTrimChars cleaned.data).isEmpty then
        append_message cfg tok
          (ConversationMessage.user ("<stdout>\n" ++ cleaned ++ "\n</stdout>"))
          s
      else s
    { s with terminal_output_buffer := [] }

/-- The `sed` command `flush_pending_edit_for_file` builds from a changed
block (insertion with the end-of-file `$a` fallback, deletion, or
replacement; payload lines escaped for `sed`). -/
def sedCommandFor (changed : ChangedBlock) (before_total_lines : Nat)
    (target_file : String) : String :=
  if changed.end_before < changed.start_before then
    let sed_payload := String.intercalate "\n"
      (changed.replacement_lines.map escape_single_quotes_for_sed)
    if changed.start_before ≤ max before_total_lines 1 then
      "sed -i '" ++ Nat.repr changed.start_before ++ "i\\\n" ++ sed_payload ++
        "' " ++ target_file
    else
      "sed -i '$a\\\n" ++ sed_payload ++ "' " ++ target_file
  else if changed.replacement_lines.isEmpty then
    "sed -i '" ++ Nat.repr changed.start_before ++ "," ++
      Nat.repr changed.end_before ++ "d' " ++ target_file
  else
    let sed_payload := String.intercalate "\n"
      (changed.replacement_lines.map escape_single_quotes_for_sed)
    "sed -i '" ++ Nat.repr changed.start_before ++ "," ++
      Nat.repr changed.end_before ++ "c\\\n" ++ sed_payload ++ "' " ++
      target_file

/-- `flush_pending_edit_for_file`: no-op without a before-snapshot; clear
the pending entries when snapshot and current state agree modulo trailing
LFs; otherwise diff (`.expect` modelled as `Except.error`), emit the chained
`sed`/viewport pair, cache the post-edit viewport and clear the pending
entries. -/
def flush_pending_edit_for_file (cfg : Config) (tok : Tokenizer)
    (target_file : String) (s : CSMState) : Except String CSMState :=
  match alGet s.pending_edits_before target_file with
  | some (some before_snapshot) =>
      let after_state := (alGet s.file_states target_file).getD ""
      if trimEndMatchesLF before_snapshot.data =
          trimEndMatchesLF after_state.data then
        Except.ok { s with
          pending_edits_before := alInsert s.pending_edits_before
            target_file none
          pending_edit_regions := alInsert s.pending_edit_regions
            target_file none }
      else
        match compute_changed_block_lines before_snapshot after_state with
        | Except.error e => Except.error e
        | Except.ok changed =>
            let before_total_lines :=
              (splitOnChar '\n' before_snapshot.data).length
            let sed_cmd := sedCommandFor changed before_total_lines target_file
            let total_lines := (splitOnChar '\n' after_state.data).length
            let center := (changed.start_after + changed.end_after) / 2
            let vp := serialize_compute_viewport total_lines center
              cfg.viewport_radius
            let pfv := alInsert s.per_file_viewport target_file (some vp)
            let s := { s with per_file_viewport := pfv }
            let s := maybe_capture_file_contents cfg tok target_file
              before_snapshot s
            let chained_cmd := sed_cmd ++ " && cat -n " ++ target_file ++
              " | sed -n '" ++ Nat.repr vp.start ++ "," ++ Nat.repr vp.end' ++
              "p'"
            let s := append_message cfg tok
              (ConversationMessage.assistant (fenced_block (some "bash")
                (clean_text chained_cmd))) s
            let viewport_output := line_numbered_output after_state
              (some vp.start) (some vp.end')
            let s := append_message cfg tok
              (ConversationMessage.user ("<stdout>\n" ++ viewport_output ++
                "\n</stdout>")) s
            Except.ok { s with
              pending_edits_before := alInsert s.pending_edits_before
                target_file none
              pending_edit_regions := alInsert s.pending_edit_regions
                target_file none }
  | _ => Except.ok s

/-- Flush pending edits for an explicitly given enumeration of the key set:
the Rust code reads the keys out of a `HashMap` (an order the language does
not specify) and flushes each in that order. -/
def flush_pending_edits_in_order (cfg : Config) (tok : Tokenizer)
    (files : List String) (s : CSMState) : Except String CSMState :=
  files.foldlM (fun st f => flush_pending_edit_for_file cfg tok f st) s

/-- `flush_all_pending_edits`: collect the keys, then flush each.  The model
enumerates the association list's keys (insertion order) where Rust gets
`HashMap::keys()`'s unspecified order. -/
def flush_all_pending_edits (cfg : Config) (tok : Tokenizer) (s : CSMState) :
    Except String CSMState :=
  flush_pending_edits_in_order cfg tok (s.pending_edits_before.map (·.1)) s

/-- `handle_tab_event`. -/
def handle_tab_event (cfg : Config) (tok : Tokenizer) (file_path : String)
    (text_content : Option String) (s : CSMState) : Except String CSMState :=
  match flush_all_pending_edits cfg tok s with
  | Except.error e => Except.error e
  | Except.ok s =>
    let s := flush_terminal_output_buffer cfg tok s
    match text_content with
    | some text =>
        let content := unescapeText text
        let fs := alInsert s.file_states file_path content
        let s := { s with file_states := fs }
        let cmd := "cat -n " ++ file_path
        let s := append_message cfg tok
          (ConversationMessage.assistant (fenced_block (some "bash")
            (clean_text cmd))) s
        let output := line_numbered_output content none none
        let s := append_message cfg tok
          (ConversationMessage.user ("<stdout>\n" ++ output ++ "\n</stdout>"))
          s
        let opened := setInsert s.files_opened_in_conversation file_path
        Except.ok { s with files_opened_in_conversation := opened }
    | none =>
        let content := (alGet s.file_states file_path).getD ""
        let total_lines := (splitOnChar '\n' content.data).length
        let cached := (alGet s.per_file_viewport file_path).getD none
        let p : Viewport × CSMState :=
          match cached with
          | some v =>
              if v.end' > 0 then (v, s)
              else
                let new_vp := serialize_compute_viewport total_lines 1
                  cfg.viewport_radius
                let pfv := alInsert s.per_file_viewport file_path (some new_vp)
                (new_vp, { s with per_file_viewport := pfv })
          | none =>
              let new_vp := serialize_compute_viewport total_lines 1
                cfg.viewport_radius
              let pfv := alInsert s.per_file_viewport file_path (some new_vp)
              (new_vp, { s with per_file_viewport := pfv })
        let vp := p.1
        let s := p.2
        if vp.end' ≥ vp.start then
          let s := maybe_capture_file_contents cfg tok file_path content s
          let cmd := "cat -n " ++ file_path ++ " | sed -n '" ++
            Nat.repr vp.start ++ "," ++ Nat.repr vp.end' ++ "p'"
          let s := append_message cfg tok
            (ConversationMessage.assistant (fenced_block (some "bash")
              (clean_text cmd))) s
          let viewport_output := line_numbered_output content (some vp.start)
            (some vp.end')
          Except.ok (append_message cfg tok
            (ConversationMessage.user ("<stdout>\n" ++ viewport_output ++
              "\n</stdout>")) s)
        else Except.ok s

/-- `handle_content_event`: flush the terminal buffer (but not pending
edits), approximate the edit's line region, flush this file's pending edit
when the new region is outside the coalesce radius, apply the change, store
the pre-change snapshot on the first edit of a burst, and union the
region. -/
def handle_content_event (cfg : Config) (tok : Tokenizer) (file_path : String)
    (offset length : Nat) (new_text : String) (s : CSMState) :
    Except String CSMState :=
  let s := flush_terminal_output_buffer cfg tok s
  let before := (alGet s.file_states file_path).getD ""
  let safe_offset := charsWithinBytes before.data
    (min offset before.utf8ByteSize)
  let safe_end := charsWithinBytes before.data
    (min (offset + length) before.utf8ByteSize)
  let start_line_current := (before.data.take safe_offset).count '\n' + 1
  let deleted_content := (before.data.take safe_end).drop safe_offset
  let lines_added := new_text.data.count '\n'
  let lines_deleted := deleted_content.count '\n'
  let region_start := start_line_current
  let region_end := start_line_current + max lines_added lines_deleted
  let current_region := (alGet s.pending_edit_regions file_path).getD none
  let flushed : Except String CSMState :=
    match current_region with
    | some region =>
        if region_start < region.start - cfg.coalesce_radius ∨
            region_start > region.end' + cfg.coalesce_radius then
          flush_pending_edit_for_file cfg tok file_path s
        else Except.ok s
    | none => Except.ok s
  match flushed with
  | Except.error e => Except.error e
  | Except.ok s =>
    let after := apply_change before offset length new_text
    let s :=
      if ((alGet s.pending_edits_before file_path).getD none).isNone then
        { s with pending_edits_before :=
            alInsert s.pending_edits_before file_path (some before) }
      else s
    let current_region := (alGet s.pending_edit_regions file_path).getD none
    let new_region : EditRegion :=
      match current_region with
      | some region =>
          ⟨min region.start region_start, max region.end' region_end⟩
      | none => ⟨region_start, max region_start region_end⟩
    let regions := alInsert s.pending_edit_regions file_path
      (some new_region)
    let s := { s with pending_edit_regions := regions }
    Except.ok { s with file_states := alInsert s.file_states file_path after }

/-- `handle_selection_event`: suppressed during an edit burst; otherwise
flush the terminal buffer and emit a viewport pair when the target line
falls outside the cached viewport (or none is cached). -/
def handle_selection_event (cfg : Config) (tok : Tokenizer)
    (file_path : String) (offset : Nat) (s : CSMState) : CSMState :=
  if ((alGet s.pending_edits_before file_path).getD none).isSome then s
  else
    let s := flush_terminal_output_buffer cfg tok s
    let content := (alGet s.file_states file_path).getD ""
    let total_lines := (splitOnChar '\n' content.data).length
    let safe_offset := charsWithinBytes content.data
      (min offset content.utf8ByteSize)
    let target_line := (content.data.take safe_offset).count '\n' + 1
    let current_vp := (alGet s.per_file_viewport file_path).getD none
    let p : Viewport × CSMState × Bool :=
      match current_vp with
      | some vp =>
          if vp.end' > 0 then
            if target_line < vp.start ∨ target_line > vp.end' then
              let new_vp := serialize_compute_viewport total_lines target_line
                cfg.viewport_radius
              let pfv := alInsert s.per_file_viewport file_path (some new_vp)
              (new_vp, { s with per_file_viewport := pfv }, true)
            else (vp, s, false)
          else
            let new_vp := serialize_compute_viewport total_lines target_line
              cfg.viewport_radius
            let pfv := alInsert s.per_file_viewport file_path (some new_vp)
            (new_vp, { s with per_file_viewport := pfv }, true)
      | none =>
          let new_vp := serialize_compute_viewport total_lines target_line
            cfg.viewport_radius
          let pfv := alInsert s.per_file_viewport file_path (some new_vp)
          (new_vp, { s with per_file_viewport := pfv }, true)
    let vp := p.1
    let s := p.2.1
    let should_emit := p.2.2
    if should_emit ∧ vp.end' ≥ vp.start then
      let s := maybe_capture_file_contents cfg tok file_path content s
      let cmd := "cat -n " ++ file_path ++ " | sed -n '" ++
        Nat.repr vp.start ++ "," ++ Nat.repr vp.end' ++ "p'"
      let s := append_message cfg tok
        (ConversationMessage.assistant (fenced_block (some "bash")
          (clean_text cmd))) s
      let viewport_output := line_numbered_output content (some vp.start)
        (some vp.end')
      append_message cfg tok
        (ConversationMessage.user ("<stdout>\n" ++ viewport_output ++
          "\n</stdout>")) s
    else s

/-- `handle_terminal_command_event`. -/
def handle_terminal_command_event (cfg : Config) (tok : Tokenizer)
    (command : String) (s : CSMState) : Except String CSMState :=
  match flush_all_pending_edits cfg tok s with
  | Except.error e => Except.error e
  | Except.ok s =>
      let s := flush_terminal_output_buffer cfg tok s
      let command_str := unescapeText command
      Except.ok (append_message cfg tok
        (ConversationMessage.assistant (fenced_block (some "bash")
          (clean_text command_str))) s)

/-- `handle_terminal_output_event`: un-escape and buffer, emit nothing. -/
def handle_terminal_output_event (output : String) (s : CSMState) : CSMState :=
  { s with terminal_output_buffer :=
      s.terminal_output_buffer ++ [unescapeText output] }

/-- `handle_terminal_focus_event`. -/
def handle_terminal_focus_event (cfg : Config) (tok : Tokenizer)
    (s : CSMState) : Except String CSMState :=
  match flush_all_pending_edits cfg tok s with
  | Except.error e => Except.error e
  | Except.ok s => Except.ok (flush_terminal_output_buffer cfg tok s)

/-- Leftmost capture of the regex `to '([^']+)'` starting at the current
position: the maximal run of non-quote characters after `to '`, which must
be non-empty and followed by a closing quote. -/
def captureAt (rest : List Char) : Option (List Char) :=
  let run := rest.takeWhile (fun c => c ≠ '\'')
  if run.isEmpty then none
  else if run.length < rest.length then some run
  else none

/-- Scan for the leftmost match of `to '([^']+)'` and return the capture. -/
def findBranchCapture : List Char → Option (List Char)
  | [] => none
  | c :: cs =>
      if ['t', 'o', ' ', '\''].isPrefixOf (c :: cs) then
        match captureAt ((c :: cs).drop 4) with
        | some r => some r
        | none => findBranchCapture cs
      else findBranchCapture cs

/-- The branch-safe character class of the Rust regex
`[^A-Za-z0-9._/\\-]` (note: it contains the backslash). -/
def isBranchSafeChar (c : Char) : Bool :=
  ('A' ≤ c ∧ c ≤ 'Z') ∨ ('a' ≤ c ∧ c ≤ 'z') ∨ ('0' ≤ c ∧ c ≤ '9') ∨
    c = '.' ∨ c = '_' ∨ c = '/' ∨ c = '\\' ∨ c = '-'

/-- The pure part of `handle_git_branch_checkout_event`: clean the message,
extract and trim the branch name, quote it when it contains an unsafe
character, and return the `git checkout` command (`none` when extraction
fails). -/
def branch_checkout_command (branch_info : String) : Option String :=
  let cleaned := clean_text (unescapeText branch_info)
  match findBranchCapture cleaned.data with
  | none => none
  | some cap =>
      let branch_name := String.mk (rustTrimChars cap)
      let branch_name :=
        if branch_name.data.any (fun c => ¬ isBranchSafeChar c) then
          "'" ++ rustReplace branch_name "'" "'\"'\"'" ++ "'"
        else branch_name
      some ("git checkout " ++ branch_name)

/-- `handle_git_branch_checkout_event`. -/
def handle_git_branch_checkout_event (cfg : Config) (tok : Tokenizer)
    (branch_info : String) (s : CSMState) : Except String CSMState :=
  match flush_all_pending_edits cfg tok s with
  | Except.error e => Except.error e
  | Except.ok s =>
      let s := flush_terminal_output_buffer cfg tok s
      match branch_checkout_command branch_info with
      | none => Except.ok s
      | some cmd =>
          Except.ok (append_message cfg tok
            (ConversationMessage.assistant (fenced_block (some "bash")
              (clean_text cmd))) s)

/-- `get_conversations`: flush everything, finalize the open chunk, and
drain the finalized list. -/
def get_conversations (cfg : Config) (tok : Tokenizer) (s : CSMState) :
    Except String (List FinalizedConversation × CSMState) :=
  match flush_all_pending_edits cfg tok s with
  | Except.error e => Except.error e
  | Except.ok s =>
      let s := flush_terminal_output_buffer cfg tok s
      let s := finalize_current_conversation cfg s
      Except.ok (s.finalized_conversations,
        { s with finalized_conversations := [] })

/-- `finalize_for_model`: flush everything and return the open message
list. -/
def finalize_for_model (cfg : Config) (tok : Tokenizer) (s : CSMState) :
    Except String (List ConversationMessage × CSMState) :=
  match flush_all_pending_edits cfg tok s with
  | Except.error e => Except.error e
  | Except.ok s =>
      let s := flush_terminal_output_buffer cfg tok s
      Except.ok (s.messages, s)

/-- The event stream (§3 of the spec; `Type` maps to these kinds, the three
selection subtypes collapse into one). -/
inductive Event where
  | tab (file : String) (text : Option String)
  | content (file : String) (offset length : Nat) (new_text : String)
  | selection (file : String) (offset : Nat)
  | terminalCommand (command : String)
  | terminalOutput (output : String)
  | terminalFocus
  | gitBranchCheckout (message : String)
deriving DecidableEq

/-- Dispatch one event to its handler. -/
def processEvent (cfg : Config) (tok : Tokenizer) (s : CSMState) :
    Event → Except String CSMState
  | Event.tab file text => handle_tab_event cfg tok file text s
  | Event.content file offset length new_text =>
      handle_content_event cfg tok file offset length new_text s
  | Event.selection file offset =>
      Except.ok (handle_selection_event cfg tok file offset s)
  | Event.terminalCommand command =>
      handle_terminal_command_event cfg tok command s
  | Event.terminalOutput output =>
      Except.ok (handle_terminal_output_event output s)
  | Event.terminalFocus => handle_terminal_focus_event cfg tok s
  | Event.gitBranchCheckout message =>
      handle_git_branch_checkout_event cfg tok message s

/-- Process an event sequence from the fresh state. -/
def processEvents (cfg : Config) (tok : Tokenizer) (events : List Event) :
    Except String CSMState :=
  events.foldlM (processEvent cfg tok) newCSMState

/-! ## Specification-side definitions

These follow the spec's words (not the source); they exist to be compared
with the source-derived definitions above. -/

/-- Reapplying a changed block onto the line sequence of `before`, as the
spec describes it: replace the 1-based inclusive lines
`start_before..end_before` by `replacement_lines`; `end_before <
start_before` encodes insertion before line `start_before` (the two
readings agree because then `end_before = start_before - 1`). -/
def applyChangedBlock (xs : List String) (blk : ChangedBlock) : List String :=
  xs.take (blk.start_before - 1) ++ blk.replacement_lines ++
    xs.drop blk.end_before

/-- The branch-safe character class as the spec writes it (letters, digits,
dot, underscore, slash, hyphen), with no backslash. -/
def isClaimSafeChar (c : Char) : Bool :=
  ('A' ≤ c ∧ c ≤ 'Z') ∨ ('a' ≤ c ∧ c ≤ 'z') ∨ ('0' ≤ c ∧ c ≤ '9') ∨
    c = '.' ∨ c = '_' ∨ c = '/' ∨ c = '-'

/-! ## Proof-layer definitions for the diff engine -/

/-- `a[i : i+n]` and `b[j : j+n]` exist and agree pointwise. -/
def IsMatchAt {α : Type} (a b : List α) (i j n : Nat) : Prop :=
  ∀ t, t < n → (a.get? (i + t)).isSome ∧ a.get? (i + t) = b.get? (j + t)

/-- `m` ends (in both sequences) no later than `m'` starts. -/
def gapRel (m m' : DiffMatch) : Prop :=
  m.i + m.n ≤ m'.i ∧ m.j + m.n ≤ m'.j

/-- Window size (the recursion measure of the matching-block loop). -/
def sizeW (w : Window) : Nat := (w.ahi - w.alo) + (w.bhi - w.blo)

/-- The stack measure: each window contributes its size plus one. -/
def measureStack (ws : List Window) : Nat :=
  (ws.map (fun w => sizeW w + 1)).sum

/-- In-order (sorted) tree of matching blocks: left sub-window, the root
match, right sub-window.  A fuel above `sizeW w` is sufficient. -/
def inorderFuel {α : Type} [DecidableEq α] (a b : List α) :
    Nat → Window → List DiffMatch
  | 0, _ => []
  | fuel + 1, w =>
      let m := find_longest_match a b w.alo w.ahi w.blo w.bhi
      if m.n = 0 then []
      else
        (if w.alo < m.i ∧ w.blo < m.j then
          inorderFuel a b fuel ⟨w.alo, m.i, w.blo, m.j⟩ else []) ++
        m :: (if m.i + m.n < w.ahi ∧ m.j + m.n < w.bhi then
          inorderFuel a b fuel ⟨m.i + m.n, w.ahi, m.j + m.n, w.bhi⟩ else [])

/-- Invariant of one `j2len` row map built while processing row `r - 1`:
every positive entry `(j, k)` records an in-window match of length `k`
ending at `(r - 1, j)`. -/
def RowInv {α : Type} (a b : List α) (alo blo bhi r : Nat) (f : Nat → Nat) :
    Prop :=
  ∀ j, 0 < f j →
    blo ≤ j ∧ j < bhi ∧ f j ≤ j + 1 - blo ∧ f j ≤ r - alo ∧ f j ≤ j + 1 ∧
      f j ≤ r ∧ IsMatchAt a b (r - f j) (j + 1 - f j) (f j)

/-- Invariant of the running best match after the rows below `ub`. -/
def AccInv {α : Type} (a b : List α) (alo blo bhi ub : Nat) (acc : FlmAcc) :
    Prop :=
  alo ≤ acc.besti ∧ acc.besti + acc.bestsize ≤ ub ∧ blo ≤ acc.bestj ∧
    acc.bestj + acc.bestsize ≤ bhi ∧
    IsMatchAt a b acc.besti acc.bestj acc.bestsize

/-- A well-formed matching-block list for `get_opcodes`: chained, all
genuine matches within bounds, ending with the sentinel. -/
def GoodBlocks {α : Type} (a b : List α) (bs : List DiffMatch) : Prop :=
  List.Chain' gapRel bs ∧
  bs.getLast? = some ⟨a.length, b.length, 0⟩ ∧
  ∀ m ∈ bs, IsMatchAt a b m.i m.j m.n ∧ m.i + m.n ≤ a.length ∧
    m.j + m.n ≤ b.length

/-! ## Proof-layer definitions for the CSM invariants -/

/-- What claims C4 and C5 assert of every finalized conversation. -/
def GoodConv (cfg : Config) (c : FinalizedConversation) : Prop :=
  cfg.min_conversation_messages ≤ c.messages.length ∧
  (∃ m ∈ c.messages, m.from' = "User") ∧
  (∃ m ∈ c.messages, m.from' = "Assistant") ∧
  (∀ mc, cfg.max_tokens_per_conversation = some mc →
    c.token_count ≤ mc + cfg.max_tokens_per_message - 1)

/-- The inductive state invariant behind claims C4 and C5. -/
def MsgInv (cfg : Config) (s : CSMState) : Prop :=
  (s.messages = [] → s.current_tokens = 0) ∧
  s.current_tokens ≤ s.messages.length * cfg.max_tokens_per_message ∧
  (∀ mc, cfg.max_tokens_per_conversation = some mc →
    2 ≤ s.messages.length →
    s.current_tokens ≤ mc + cfg.max_tokens_per_message - 1) ∧
  (∀ c ∈ s.finalized_conversations, GoodConv cfg c)

/-! ## Concrete runs used by witnesses -/

/-- A pending-edit state with two dirty files (used to analyse the flush
order of `flush_all_pending_edits`). -/
def c6PendingState : CSMState :=
  { newCSMState with
      file_states := [("/a", "a2"), ("/b", "b2")]
      pending_edits_before := [("/a", some "a1"), ("/b", some "b1")]
      pending_edit_regions := [("/a", some ⟨1, 1⟩), ("/b", some ⟨1, 1⟩)] }

/-- A small chunking configuration for the C4/C5 witnesses. -/
def witnessConfig : Config :=
  { viewport_radius := 10
    coalesce_radius := 5
    max_tokens_per_message := 50
    max_tokens_per_terminal_output := 256
    max_tokens_per_conversation := some 1000
    min_conversation_messages := 2 }

/-- A small event sequence whose run finalizes one conversation. -/
def witnessEventsA : List Event :=
  [Event.tab "/a" (some "x"), Event.terminalCommand "ls",
    Event.terminalOutput "ok"]

/-- The state after running `witnessEventsA` (C4's witness run). -/
def c4WitnessState : CSMState :=
  (processEvents witnessConfig charApproxTokenizer witnessEventsA).toOption.getD
    newCSMState

/-- The drained conversations of the C4 witness run. -/
def c4WitnessPair : List FinalizedConversation × CSMState :=
  (get_conversations witnessConfig charApproxTokenizer
    c4WitnessState).toOption.getD ([], newCSMState)

/-- The finalized conversation of the C4 witness run. -/
def c4WitnessConv : FinalizedConversation :=
  c4WitnessPair.1.headD ⟨[], 0⟩

/-- The state after running `witnessEventsA` (C5's witness run). -/
def c5WitnessState : CSMState :=
  (processEvents witnessConfig charApproxTokenizer witnessEventsA).toOption.getD
    newCSMState

/-- The drained conversations of the C5 witness run. -/
def c5WitnessPair : List FinalizedConversation × CSMState :=
  (get_conversations witnessConfig charApproxTokenizer
    c5WitnessState).toOption.getD ([], newCSMState)

/-- The finalized conversation of the C5 witness run. -/
def c5WitnessConv : FinalizedConversation :=
  c5WitnessPair.1.headD ⟨[], 0⟩

/-- The state after an empty terminal command on the fresh state (C10's
witness run). -/
def c10WitnessState : CSMState :=
  (handle_terminal_command_event defaultConfig charApproxTokenizer ""
    newCSMState).toOption.getD newCSMState

/-! # Lemmas and claim theorems -/

/-! ## Generic helper lemmas -/

theorem find?_map_overwrite {β : Type} (k : String) (v : β) :
    ∀ m : List (String × β), (m.find? (fun p => p.1 = k)).isSome →
    ((m.map (fun p => if p.1 = k then (k, v) else p)).find?
      (fun p => p.1 = k)) = some (k, v) := by
  intro m
  induction m with
  | nil => simp
  | cons p ps ih =>
      by_cases hp : p.1 = k
      · intro _
        simp [List.find?_cons, hp]
      · intro h
        rw [List.find?_cons, decide_eq_false hp] at h
        rw [List.map_cons, if_neg hp, List.find?_cons, decide_eq_false hp]
        exact ih h

theorem find?_append_right {β : Type} (q : β → Bool) (l₁ l₂ : List β)
    (h : l₁.find? q = none) : (l₁ ++ l₂).find? q = l₂.find? q := by
  induction l₁ with
  | nil => simp
  | cons p ps ih =>
      rw [List.find?_cons] at h
      rcases hd : q p with _ | _
      · rw [hd] at h
        rw [List.cons_append, List.find?_cons, hd]
        exact ih h
      · rw [hd] at h
        exact absurd h (by simp)

theorem alGet_alInsert {β : Type} (m : List (String × β)) (k : String)
    (v : β) : alGet (alInsert m k v) k = some v := by
  unfold alGet alInsert
  split
  · rename_i h
    rw [find?_map_overwrite k v m h]
    simp
  · rename_i h
    rw [Option.not_isSome_iff_eq_none] at h
    rw [find?_append_right _ _ _ h]
    simp

theorem flush_terminal_empty (cfg : Config) (tok : Tokenizer) (s : CSMState)
    (h : s.terminal_output_buffer = []) :
    flush_terminal_output_buffer cfg tok s = s := by
  unfold flush_terminal_output_buffer
  simp [h]

theorem append_message_no_trunc (cfg : Config) (tok : Tokenizer)
    (m : ConversationMessage) (s : CSMState)
    (hmc : cfg.max_tokens_per_conversation = none)
    (hm : ¬ tok.count_tokens m.value > cfg.max_tokens_per_message) :
    append_message cfg tok m s =
      { s with messages := s.messages ++ [m],
               current_tokens := s.current_tokens +
                 tok.count_tokens m.value } := by
  unfold append_message
  rw [hmc]
  simp [hm]

theorem append_message_shape (cfg : Config) (tok : Tokenizer)
    (m : ConversationMessage) (s : CSMState)
    (hmc : cfg.max_tokens_per_conversation = none) :
    ∃ v t, append_message cfg tok m s =
      { s with messages := s.messages ++ [⟨m.from', v⟩],
               current_tokens := s.current_tokens + t } := by
  unfold append_message
  rw [hmc]
  by_cases h : tok.count_tokens m.value > cfg.max_tokens_per_message
  · exact ⟨tok.truncate_to_max_tokens m.value cfg.max_tokens_per_message,
      cfg.max_tokens_per_message, by simp [h]⟩
  · exact ⟨m.value, tok.count_tokens m.value, by simp [h]⟩

/-! ## Claim C1 -/

/-- C1: the claim says the trailing-LF guard in `flush_pending_edit_for_file`
makes the diff's no-opcodes error (and hence the panic after the guard)
unreachable.  The code violates this: a reachable session — open a tab with
content "a\r\nb", then delete the carriage return — leaves a before-snapshot
and a current state that differ (so the guard passes) but whose `lines()`
sequences are equal (a line-terminating `\r\n` collapses to `\n`), so
`compute_changed_block_lines` errors and the `.expect` panics.  The theorem
evaluates the model at that failing input: the whole run aborts with the
diff error, the guard comparison indeed passes, and the diff indeed
errors. -/
theorem c1_csm_panics_despite_guard :
    processEvents defaultConfig charApproxTokenizer
      [Event.tab "/f" (some "a\\r\\nb"), Event.content "/f" 1 1 "",
        Event.terminalFocus] = Except.error noOpcodesMsg ∧
    trimEndMatchesLF "a\r\nb".data ≠ trimEndMatchesLF "a\nb".data ∧
    compute_changed_block_lines "a\r\nb" "a\nb" =
      Except.error noOpcodesMsg := by
  refine ⟨by decide, by decide, by decide⟩

/-! ## Claim C6 -/

/-- C6: the claim says `flush_all_pending_edits` visits files in a stable
order sorted by path.  The code collects `HashMap::keys()` — an order Rust
leaves unspecified and randomizes per process — and never sorts.  This
theorem shows the emitted transcript depends on that enumeration order: on
the same state (pending snapshots for "/a" and "/b"), flushing in the two
key orders (both permutations of the key set) produces different message
sequences, so without a sort the output is not reproducible. -/
theorem c6_flush_order_dependent :
    c6PendingState.pending_edits_before.map (·.1) = ["/a", "/b"] ∧
    (["/b", "/a"] : List String).Perm
      (c6PendingState.pending_edits_before.map (·.1)) ∧
    (flush_pending_edits_in_order defaultConfig charApproxTokenizer
        ["/a", "/b"] c6PendingState).map (fun s => s.messages.map (·.value)) ≠
      (flush_pending_edits_in_order defaultConfig charApproxTokenizer
        ["/b", "/a"] c6PendingState).map
          (fun s => s.messages.map (·.value)) := by
  refine ⟨by decide, by decide, by decide⟩

/-! ## Claim C10 -/

/-- C10: an empty terminal command (the CSV adapter's substitute for a
missing `Text` field) is not filtered out: after the flushes, the handler
still appends an Assistant message whose value is the empty fenced bash
block. -/
theorem c10_empty_command_fenced (s s' : CSMState)
    (h : handle_terminal_command_event defaultConfig charApproxTokenizer ""
      s = Except.ok s') :
    s'.messages.getLast? = some ⟨"Assistant", "```bash\n\n```\n"⟩ := by
  unfold handle_terminal_command_event at h
  revert h
  cases hf : flush_all_pending_edits defaultConfig charApproxTokenizer s with
  | error e => intro h; cases h
  | ok s0 =>
      intro h
      rw [Except.ok.injEq] at h
      subst h
      rw [show (ConversationMessage.assistant (fenced_block (some "bash")
        (clean_text (unescapeText "")))) =
          ⟨"Assistant", "```bash\n\n```\n"⟩ from rfl]
      rw [append_message_no_trunc _ _ _ _ rfl (by decide)]
      simp

/-- Witness for C10 at the fresh state. -/
theorem c10_witness :
    c10WitnessState.messages.getLast? =
      some ⟨"Assistant", "```bash\n\n```\n"⟩ :=
  c10_empty_command_fenced newCSMState c10WitnessState rfl

/-! ## Claim C9 -/

theorem applyBackspacesAux_no_bs : ∀ (l acc : List Char),
    (∀ c ∈ l, c ≠ '\x08') → applyBackspacesAux acc l = acc.reverse ++ l := by
  intro l
  induction l with
  | nil => intro acc _; simp [applyBackspacesAux]
  | cons c cs ih =>
      intro acc h
      unfold applyBackspacesAux
      rw [if_neg (h c (List.mem_cons_self c cs))]
      rw [ih (c :: acc) (fun x hx => h x (List.mem_cons_of_mem c hx))]
      simp

theorem stripOscTerminatedFuel_no_esc : ∀ (fuel : Nat) (l : List Char),
    (∀ c ∈ l, c ≠ '\x1b') → stripOscTerminatedFuel fuel l = l := by
  intro fuel
  induction fuel with
  | zero => intro l _; rfl
  | succ n ih =>
      intro l h
      cases l with
      | nil => rfl
      | cons c cs =>
          unfold stripOscTerminatedFuel
          rw [if_neg (fun hc => (h c (List.mem_cons_self c cs)) hc.1)]
          rw [ih cs (fun x hx => h x (List.mem_cons_of_mem c hx))]

theorem dropUnterminatedOsc_no_esc : ∀ (l : List Char),
    (∀ c ∈ l, c ≠ '\x1b') → dropUnterminatedOsc l = l := by
  intro l
  induction l with
  | nil => intro _; rfl
  | cons c cs ih =>
      intro h
      unfold dropUnterminatedOsc
      rw [if_neg (fun hc => (h c (List.mem_cons_self c cs)) hc.1)]
      rw [ih (fun x hx => h x (List.mem_cons_of_mem c hx))]

theorem stripCsiFuel_no_esc : ∀ (fuel : Nat) (l : List Char),
    (∀ c ∈ l, c ≠ '\x1b') → stripCsiFuel fuel l = l := by
  intro fuel
  induction fuel with
  | zero => intro l _; rfl
  | succ n ih =>
      intro l h
      cases l with
      | nil => rfl
      | cons c cs =>
          unfold stripCsiFuel
          rw [if_neg (fun hc => (h c (List.mem_cons_self c cs)) hc.1)]
          rw [ih cs (fun x hx => h x (List.mem_cons_of_mem c hx))]

theorem splitOnChar_ne_nil (sep : Char) : ∀ l, splitOnChar sep l ≠ [] := by
  intro l
  cases l with
  | nil => simp [splitOnChar]
  | cons c cs =>
      unfold splitOnChar
      by_cases hc : c = sep <;> simp [hc]

theorem splitOnChar_mem (sep : Char) : ∀ l p, p ∈ splitOnChar sep l →
    ∀ c ∈ p, c ∈ l ∧ c ≠ sep := by
  intro l
  induction l with
  | nil =>
      intro p hp c hc
      simp [splitOnChar] at hp
      subst hp
      cases hc
  | cons a as ih =>
      intro p hp c hc
      unfold splitOnChar at hp
      by_cases ha : a = sep
      · rw [if_pos ha] at hp
        rcases List.mem_cons.mp hp with h1 | h1
        · subst h1; cases hc
        · have := ih p h1 c hc
          exact ⟨List.mem_cons_of_mem a this.1, this.2⟩
      · rw [if_neg ha] at hp
        rcases List.mem_cons.mp hp with h1 | h1
        · subst h1
          rcases List.mem_cons.mp hc with h2 | h2
          · subst h2
            exact ⟨List.mem_cons_self c as, ha⟩
          · have hmem : (splitOnChar sep as).headD [] ∈ splitOnChar sep as := by
              cases hsp : splitOnChar sep as with
              | nil => exact absurd hsp (splitOnChar_ne_nil sep as)
              | cons q qs => simp
            have := ih _ hmem c h2
            exact ⟨List.mem_cons_of_mem a this.1, this.2⟩
        · have hmem : p ∈ splitOnChar sep as := List.mem_of_mem_tail h1
          have := ih p hmem c hc
          exact ⟨List.mem_cons_of_mem a this.1, this.2⟩

theorem splitOnChar_no_sep (sep : Char) (l : List Char) :
    sep ∉ l → splitOnChar sep l = [l] := by
  induction l with
  | nil => intro _; rfl
  | cons a as ih =>
      intro h
      unfold splitOnChar
      rw [if_neg (fun ha => h (by rw [← ha]; exact List.mem_cons_self a as))]
      rw [ih (fun ha => h (List.mem_cons_of_mem a ha))]
      rfl

theorem joinWithChar_splitOnChar (sep : Char) : ∀ l,
    joinWithChar sep (splitOnChar sep l) = l := by
  intro l
  induction l with
  | nil => rfl
  | cons a as ih =>
      unfold splitOnChar
      by_cases ha : a = sep
      · rw [if_pos ha]
        subst ha
        cases hsp : splitOnChar a as with
        | nil => exact absurd hsp (splitOnChar_ne_nil a as)
        | cons q qs =>
            rw [hsp] at ih
            show [] ++ a :: joinWithChar a (q :: qs) = a :: as
            rw [ih]
            rfl
      · rw [if_neg ha]
        cases hsp : splitOnChar sep as with
        | nil => exact absurd hsp (splitOnChar_ne_nil sep as)
        | cons q qs =>
            cases qs with
            | nil =>
                show joinWithChar sep [a :: q] = a :: as
                have : joinWithChar sep (splitOnChar sep as) = as := ih
                rw [hsp] at this
                show a :: q = a :: as
                rw [show joinWithChar sep [q] = q from rfl] at this
                rw [this]
            | cons q2 qs2 =>
                show (a :: q) ++ sep :: joinWithChar sep (q2 :: qs2) = a :: as
                have : joinWithChar sep (splitOnChar sep as) = as := ih
                rw [hsp] at this
                rw [show joinWithChar sep (q :: q2 :: qs2) =
                  q ++ sep :: joinWithChar sep (q2 :: qs2) from rfl] at this
                rw [List.cons_append, this]

theorem joinWithChar_mem (sep : Char) : ∀ parts c,
    c ∈ joinWithChar sep parts →
    (∃ p ∈ parts, c ∈ p) ∨ (c = sep ∧ 2 ≤ parts.length) := by
  intro parts
  induction parts with
  | nil => intro c hc; cases hc
  | cons p ps ih =>
      intro c hc
      cases ps with
      | nil =>
          exact Or.inl ⟨p, List.mem_cons_self p [], hc⟩
      | cons p2 ps2 =>
          rw [show joinWithChar sep (p :: p2 :: ps2) =
            p ++ sep :: joinWithChar sep (p2 :: ps2) from rfl] at hc
          rcases List.mem_append.mp hc with h1 | h1
          · exact Or.inl ⟨p, List.mem_cons_self p _, h1⟩
          · rcases List.mem_cons.mp h1 with h2 | h2
            · exact Or.inr ⟨h2, by simp⟩
            · rcases ih c h2 with ⟨q, hq, hcq⟩ | ⟨h3, _⟩
              · exact Or.inl ⟨q, List.mem_cons_of_mem p hq, hcq⟩
              · exact Or.inr ⟨h3, by simp⟩

theorem splitOnChar_two_le (sep : Char) : ∀ l,
    2 ≤ (splitOnChar sep l).length → sep ∈ l := by
  intro l
  induction l with
  | nil => intro h; simp [splitOnChar] at h
  | cons a as ih =>
      intro h
      unfold splitOnChar at h
      by_cases ha : a = sep
      · rw [← ha]
        exact List.mem_cons_self a as
      · rw [if_neg ha] at h
        simp only [List.length_cons] at h
        have : 2 ≤ (splitOnChar sep as).length := by
          cases hsp : splitOnChar sep as with
          | nil => exact absurd hsp (splitOnChar_ne_nil sep as)
          | cons q qs =>
              rw [hsp] at h
              simp at h ⊢
              omega
        exact List.mem_cons_of_mem a (ih this)

theorem getLastD_mem {α : Type} (l : List α) (d : α) (h : l ≠ []) :
    l.getLastD d ∈ l := by
  cases l with
  | nil => exact absurd rfl h
  | cons a as =>
      rw [List.getLastD_eq_getLast?]
      rw [List.getLast?_eq_getLast (a :: as) (by simp)]
      simp only [Option.getD_some]
      exact List.getLast_mem _

theorem resolveCrSegment_mem_split (seg : List Char) :
    resolveCrSegment seg ∈ splitOnChar '\r' seg := by
  unfold resolveCrSegment
  cases hf : (splitOnChar '\r' seg).reverse.find? (fun p => !p.isEmpty) with
  | some p =>
      simp only [hf]
      rw [← List.mem_reverse]
      exact List.mem_of_find?_eq_some hf
  | none =>
      simp only [hf]
      exact getLastD_mem _ _ (splitOnChar_ne_nil '\r' seg)

theorem resolveCrSegment_mem (seg : List Char) :
    ∀ c ∈ resolveCrSegment seg, c ∈ seg ∧ c ≠ '\r' :=
  fun c hc =>
    splitOnChar_mem '\r' seg _ (resolveCrSegment_mem_split seg) c hc

theorem resolveCrSegment_no_cr (seg : List Char) (h : '\r' ∉ seg) :
    resolveCrSegment seg = seg := by
  unfold resolveCrSegment
  rw [splitOnChar_no_sep '\r' seg h]
  cases hs : seg with
  | nil => rfl
  | cons a as => rfl
theorem crResolve_mem (l : List Char) :
    ∀ c ∈ joinWithChar '\n' ((splitOnChar '\n' l).map resolveCrSegment),
      c ∈ l ∧ c ≠ '\r' := by
  intro c hc
  rcases joinWithChar_mem '\n' _ c hc with ⟨p', hp', hcp'⟩ | ⟨hceq, hlen⟩
  · rcases List.mem_map.mp hp' with ⟨p, hp, hpe⟩
    subst hpe
    have h1 := resolveCrSegment_mem p c hcp'
    have h2 := splitOnChar_mem '\n' l p hp c h1.1
    exact ⟨h2.1, h1.2⟩
  · subst hceq
    rw [List.length_map] at hlen
    exact ⟨splitOnChar_two_le '\n' l hlen, by decide⟩

theorem crResolve_no_cr_id (l : List Char) (h : '\r' ∉ l) :
    joinWithChar '\n' ((splitOnChar '\n' l).map resolveCrSegment) = l := by
  have hmap : (splitOnChar '\n' l).map resolveCrSegment =
      (splitOnChar '\n' l).map id := by
    apply List.map_congr_left
    intro p hp
    have : '\r' ∉ p := fun hc =>
      h (splitOnChar_mem '\n' l p hp '\r' hc).1
    rw [resolveCrSegment_no_cr p this]
    rfl
  rw [hmap, List.map_id]
  exact joinWithChar_splitOnChar '\n' l

theorem oscLine_no_esc_id (l : List Char) (h : ∀ c ∈ l, c ≠ '\x1b') :
    joinWithChar '\n' ((splitOnChar '\n' l).map dropUnterminatedOsc) = l := by
  have hmap : (splitOnChar '\n' l).map dropUnterminatedOsc =
      (splitOnChar '\n' l).map id := by
    apply List.map_congr_left
    intro p hp
    rw [dropUnterminatedOsc_no_esc p
      (fun c hc => h c (splitOnChar_mem '\n' l p hp c hc).1)]
    rfl
  rw [hmap, List.map_id]
  exact joinWithChar_splitOnChar '\n' l

theorem normalize_shape (s : String) (hs : ¬ s.isEmpty = true)
    (h : ∀ c ∈ s.data, c ≠ '\x08' ∧ c ≠ '\x1b') :
    normalize_terminal_output s = String.mk
      ((joinWithChar '\n'
        ((splitOnChar '\n' s.data).map resolveCrSegment)).filter
          (fun c => c ≠ '\x07')) := by
  unfold normalize_terminal_output
  rw [if_neg hs]
  have hbs : applyBackspacesAux [] s.data = s.data := by
    have := applyBackspacesAux_no_bs s.data [] (fun c hc => (h c hc).1)
    simpa using this
  simp only [hbs]
  have hosc : stripOscTerminatedFuel s.data.length s.data = s.data :=
    stripOscTerminatedFuel_no_esc _ _ (fun c hc => (h c hc).2)
  simp only [hosc]
  have hline : joinWithChar '\n'
      ((splitOnChar '\n' s.data).map dropUnterminatedOsc) = s.data :=
    oscLine_no_esc_id s.data (fun c hc => (h c hc).2)
  simp only [hline]
  have hcsi : stripCsiFuel
      (joinWithChar '\n'
        ((splitOnChar '\n' s.data).map resolveCrSegment)).length
      (joinWithChar '\n'
        ((splitOnChar '\n' s.data).map resolveCrSegment)) =
      joinWithChar '\n' ((splitOnChar '\n' s.data).map resolveCrSegment) :=
    stripCsiFuel_no_esc _ _
      (fun c hc => fun he => (h c (crResolve_mem s.data c hc).1).2 he)
  simp only [hcsi]

/-- C9: `normalize_terminal_output` is idempotent on inputs free of
backspaces and of the ESC character (ANSI escape sequences all start with
ESC). -/
theorem c9_normalize_idempotent (s : String)
    (h : ∀ c ∈ s.data, c ≠ '\x08' ∧ c ≠ '\x1b') :
    normalize_terminal_output (normalize_terminal_output s) =
      normalize_terminal_output s := by
  by_cases hs : s.isEmpty = true
  · rw [String.isEmpty_iff] at hs
    subst hs
    rfl
  · rw [normalize_shape s hs h]
    set o := (joinWithChar '\n'
      ((splitOnChar '\n' s.data).map resolveCrSegment)).filter
        (fun c => c ≠ '\x07') with ho
    have homem : ∀ c ∈ o, c ∈ s.data ∧ c ≠ '\r' ∧ c ≠ '\x07' := by
      intro c hc
      rw [ho, List.mem_filter] at hc
      have h1 := crResolve_mem s.data c hc.1
      refine ⟨h1.1, h1.2, by simpa using hc.2⟩
    by_cases hoe : (String.mk o).isEmpty = true
    · rw [String.isEmpty_iff] at hoe
      rw [hoe]
      rfl
    · have hdata : (String.mk o).data = o := rfl
      rw [normalize_shape (String.mk o) hoe
        (fun c hc => ⟨(h c (homem c (hdata ▸ hc)).1).1,
          (h c (homem c (hdata ▸ hc)).1).2⟩)]
      rw [hdata]
      have hcr : joinWithChar '\n'
          ((splitOnChar '\n' o).map resolveCrSegment) = o :=
        crResolve_no_cr_id o (fun hc => (homem '\r' hc).2.1 rfl)
      rw [hcr]
      congr 1
      rw [List.filter_eq_self]
      intro c hc
      simpa using (homem c hc).2.2

/-- Witness for C9 on an input with a carriage return and a BEL. -/
theorem c9_witness :
    normalize_terminal_output (normalize_terminal_output "ab\rcd\x07e") =
      normalize_terminal_output "ab\rcd\x07e" :=
  c9_normalize_idempotent "ab\rcd\x07e" (by decide)

/-! ## Claim C7 -/

theorem mem_trimEndChars {c : Char} {l : List Char}
    (h : c ∈ trimEndChars l) : c ∈ l := by
  unfold trimEndChars at h
  rw [List.mem_reverse] at h
  have := (List.dropWhile_sublist rustIsWhitespace).mem h
  rwa [List.mem_reverse] at this

theorem mem_rustTrimChars {c : Char} {l : List Char}
    (h : c ∈ rustTrimChars l) : c ∈ l := by
  unfold rustTrimChars at h
  exact (List.dropWhile_sublist rustIsWhitespace).mem (mem_trimEndChars h)

theorem captureAt_no_quote {rest r : List Char} (h : captureAt rest = some r) :
    '\'' ∉ r := by
  simp only [captureAt] at h
  split at h
  · cases h
  · split at h
    · rw [Option.some.injEq] at h
      subst h
      intro hc
      have := List.mem_takeWhile_imp hc
      simp at this
    · cases h

theorem findBranchCapture_no_quote : ∀ l cap, findBranchCapture l = some cap →
    '\'' ∉ cap := by
  intro l
  induction l with
  | nil => intro cap h; cases h
  | cons c cs ih =>
      intro cap h
      unfold findBranchCapture at h
      split at h
      · revert h
        cases hc : captureAt ((c :: cs).drop 4) with
        | some r =>
            intro h
            rw [Option.some.injEq] at h
            subst h
            exact captureAt_no_quote hc
        | none => intro h; exact ih cap h
      · exact ih cap h

theorem singleCharReplace_id (p : Char) (rep : List Char) :
    ∀ fuel l, p ∉ l → listReplaceFuel p [] rep fuel l = l := by
  intro fuel
  induction fuel with
  | zero => intro l _; cases l <;> rfl
  | succ n ih =>
      intro l hl
      cases l with
      | nil => rfl
      | cons c cs =>
          unfold listReplaceFuel
          rw [if_neg]
          · rw [ih cs (fun hc => hl (List.mem_cons_of_mem c hc))]
          · intro hpre
            have hc : c = p := by
              rw [List.isPrefixOf_iff_prefix] at hpre
              rcases hpre with ⟨t, ht⟩
              simp at ht
              exact ht.1.symm
            exact hl (hc ▸ List.mem_cons_self c cs)

/-- C7 as stated is false: the code's safe-character regex also treats the
backslash as safe (its class is written with an escaped backslash), so a
branch name containing a backslash — outside the claim's class — is emitted
unquoted. -/
theorem c7_claim_counterexample :
    branch_checkout_command "to 'a\\b'" = some "git checkout a\\b" ∧
    '\\' ∈ ("a\\b" : String).data ∧ isClaimSafeChar '\\' = false ∧
    "git checkout a\\b" ≠ "git checkout " ++ "'" ++ "a\\b" ++ "'" := by
  refine ⟨by decide, by decide, by decide, by decide⟩

/-- C7 amended: the extracted name is trimmed; if the trimmed name contains
any character outside the code's class — letters, digits, dot, underscore,
slash, hyphen *and backslash* — it is wrapped in single quotes (the
embedded-quote replacement is vacuous, as the capture `[^']+` can hold no
quote); otherwise it appears unquoted. -/
theorem c7_branch_quoting (info : String) (cap : List Char)
    (h : findBranchCapture (clean_text (unescapeText info)).data = some cap) :
    branch_checkout_command info =
      some ("git checkout " ++
        if (rustTrimChars cap).any (fun c => ¬ isBranchSafeChar c) then
          "'" ++ String.mk (rustTrimChars cap) ++ "'"
        else String.mk (rustTrimChars cap)) := by
  simp only [branch_checkout_command]
  rw [h]
  simp only []
  have hq : '\'' ∉ rustTrimChars cap :=
    fun hc => findBranchCapture_no_quote _ cap h (mem_rustTrimChars hc)
  by_cases hc : (rustTrimChars cap).any (fun c => ¬ isBranchSafeChar c)
  · rw [if_pos hc]
    rw [if_pos (by exact hc)]
    have : rustReplace (String.mk (rustTrimChars cap)) "'" "'\"'\"'" =
        String.mk (rustTrimChars cap) := by
      unfold rustReplace
      exact congrArg String.mk (singleCharReplace_id _ _ _ _ hq)
    rw [this]
  · rw [if_neg hc]
    rw [if_neg (by exact hc)]

/-- Witness for the amended C7: a name with a space is quoted. -/
theorem c7_witness :
    branch_checkout_command "to 'a b'" =
      some ("git checkout " ++
        if (rustTrimChars ("a b" : String).data).any
            (fun c => ¬ isBranchSafeChar c) then
          "'" ++ String.mk (rustTrimChars ("a b" : String).data) ++ "'"
        else String.mk (rustTrimChars ("a b" : String).data)) :=
  c7_branch_quoting "to 'a b'" ("a b" : String).data (by decide)

/-! ## Claim C8 -/

/-- C8 as stated is false: the padding trigger uses the byte length, not the
character count.  For content "é" (one character, two UTF-8 bytes) and
offset 2, the offset exceeds the character count but no padding happens and
the inserted text lands at character position 1 — not at position 2 after a
space, as the claim requires. -/
theorem c8_claim_counterexample :
    apply_change "é" 2 0 "x" = "éx" ∧ ("é" : String).data.length < 2 ∧
    apply_change "é" 2 0 "x" ≠ "é " ++ "x" := by
  refine ⟨by decide, by decide, by decide⟩

theorem length_le_utf8Len : ∀ l : List Char, l.length ≤ String.utf8Len l := by
  intro l
  induction l with
  | nil => exact Nat.le_refl 0
  | cons c cs ih =>
      rw [String.utf8Len_cons]
      have := Char.utf8Size_pos c
      simp only [List.length_cons]
      omega

theorem data_length_le_utf8ByteSize (s : String) :
    s.data.length ≤ s.utf8ByteSize := by
  cases s with
  | mk data => rw [String.utf8ByteSize_mk]; exact length_le_utf8Len data

/-- C8 amended: `apply_change` translates escapes and splices over codepoint
indices, and clamps `length` to the characters remaining after `offset`; but
the padding guard compares `offset` with the UTF-8 *byte* length of the
content (not its character count) and pads with `offset - bytelen` spaces.
For offsets up to the character count the claimed codepoint behaviour holds
as stated; between the character count and the byte length no padding
happens and the text lands at the end of the content. -/
theorem c8_apply_change_padding (content : String) (offset length : Nat)
    (new_text : String) :
    (content.utf8ByteSize < offset →
      apply_change content offset length new_text =
        content ++
          String.mk (List.replicate (offset - content.utf8ByteSize) ' ') ++
          unescapeText new_text) ∧
    (content.data.length ≤ offset → offset ≤ content.utf8ByteSize →
      apply_change content offset length new_text =
        content ++ unescapeText new_text) ∧
    (offset ≤ content.data.length →
      (apply_change content offset length new_text).data =
        content.data.take offset ++ (unescapeText new_text).data ++
          content.data.drop
            (offset + min length (content.data.length - offset))) := by
  have hlen := data_length_le_utf8ByteSize content
  refine ⟨?_, ?_, ?_⟩
  · intro h
    unfold apply_change
    rw [if_pos (by omega)]
    apply String.ext
    simp only [String.data_append, String.mk]
    have hl : (content.data ++
        List.replicate (offset - content.utf8ByteSize) ' ').length ≤ offset := by
      simp only [List.length_append, List.length_replicate]
      omega
    rw [min_eq_right hl]
    simp only [Nat.sub_self, Nat.min_zero, Nat.add_zero, List.take_length,
      List.drop_length, List.append_nil, List.append_assoc]
  · intro h1 h2
    unfold apply_change
    rw [if_neg (by omega)]
    apply String.ext
    simp only [String.data_append, String.mk]
    rw [min_eq_right h1]
    simp only [Nat.sub_self, Nat.min_zero, Nat.add_zero, List.take_length,
      List.drop_length, List.append_nil, List.append_assoc]
  · intro h1
    have h2 : offset ≤ content.utf8ByteSize := le_trans h1 hlen
    unfold apply_change
    rw [if_neg (by omega)]
    simp only [String.data_append, String.mk]
    rw [min_eq_left h1]

/-- Witness for the amended C8, one instance per branch. -/
theorem c8_witness :
    apply_change "ab" 5 1 "z" =
      "ab" ++ String.mk (List.replicate (5 - ("ab" : String).utf8ByteSize) ' ')
        ++ unescapeText "z" ∧
    apply_change "é" 2 3 "z" = "é" ++ unescapeText "z" ∧
    (apply_change "abcd" 1 2 "z").data =
      ("abcd" : String).data.take 1 ++ (unescapeText "z").data ++
        ("abcd" : String).data.drop
          (1 + min 2 (("abcd" : String).data.length - 1)) :=
  ⟨(c8_apply_change_padding "ab" 5 1 "z").1 (by decide),
   (c8_apply_change_padding "é" 2 3 "z").2.1 (by decide) (by decide),
   (c8_apply_change_padding "abcd" 1 2 "z").2.2 (by decide)⟩

/-! ## Claim C3 -/

theorem vp_one_one (r : Nat) : serialize_compute_viewport 1 1 r = ⟨1, 1⟩ := by
  unfold serialize_compute_viewport
  simp only [if_neg (by omega : ¬ (1 : Nat) = 0)]
  congr 1
  · omega
  · omega

theorem maybe_capture_shape (cfg : Config) (tok : Tokenizer) (f c : String)
    (s : CSMState) (hmc : cfg.max_tokens_per_conversation = none)
    (hopen : s.files_opened_in_conversation.contains f = false) :
    ∃ v1 v2 t, maybe_capture_file_contents cfg tok f c s =
      { s with
          messages := s.messages ++ [⟨"Assistant", v1⟩, ⟨"User", v2⟩],
          current_tokens := s.current_tokens + t,
          files_opened_in_conversation :=
            setInsert s.files_opened_in_conversation f } := by
  unfold maybe_capture_file_contents
  rw [hopen]
  simp only [ConversationMessage.assistant, ConversationMessage.user]
  obtain ⟨v1, t1, h1⟩ := append_message_shape cfg tok
    ⟨"Assistant", fenced_block (some "bash") (clean_text ("cat -n " ++ f))⟩
    s hmc
  simp only [Bool.false_eq_true, if_false, h1]
  obtain ⟨v2, t2, h2⟩ := append_message_shape cfg tok
    ⟨"User", "<stdout>\n" ++ line_numbered_output c none none ++
      "\n</stdout>"⟩
    { s with messages := s.messages ++ [⟨"Assistant", v1⟩],
             current_tokens := s.current_tokens + t1 } hmc
  rw [h2]
  exact ⟨v1, v2, t1 + t2, by simp [Nat.add_assoc]⟩

theorem c3_empty_selection_emits_viewport_pair
    (cfg : Config) (tok : Tokenizer) (s : CSMState) (f : String) (off : Nat)
    (hmc : cfg.max_tokens_per_conversation = none)
    (hpend : (alGet s.pending_edits_before f).getD none = none)
    (hcontent : (alGet s.file_states f).getD "" = "")
    (hvp : (alGet s.per_file_viewport f).getD none = none)
    (hopen : s.files_opened_in_conversation.contains f = false)
    (hbuf : s.terminal_output_buffer = []) :
    (handle_selection_event cfg tok f off s).messages.map (·.from') =
      s.messages.map (·.from') ++ ["Assistant", "User", "Assistant", "User"] ∧
    alGet (handle_selection_event cfg tok f off s).per_file_viewport f =
      some (some ⟨1, 1⟩) := by
  unfold handle_selection_event
  simp only [ConversationMessage.assistant, ConversationMessage.user]
  rw [hpend]
  rw [flush_terminal_empty cfg tok s hbuf]
  simp only [Option.isSome_none, Bool.false_eq_true, if_false]
  rw [hcontent, hvp]
  simp only [show splitOnChar '\n' (("" : String).data) = [[]] from rfl,
    show (("" : String).data) = [] from rfl, List.take_nil, List.count_nil,
    List.length_cons, List.length_nil, Nat.zero_add, vp_one_one]
  obtain ⟨v1, v2, t, hcap⟩ := maybe_capture_shape cfg tok f ""
    { s with per_file_viewport := alInsert s.per_file_viewport f (some ⟨1, 1⟩) } hmc hopen
  simp only [ge_iff_le, le_refl, and_true, true_and, if_true, hcap]
  obtain ⟨v3, t3, h3⟩ := append_message_shape cfg tok
    ⟨"Assistant", fenced_block (some "bash")
      (clean_text ("cat -n " ++ f ++ " | sed -n '" ++ Nat.repr (1 : Nat) ++
        "," ++ Nat.repr (1 : Nat) ++ "p'"))⟩ _ hmc
  rw [h3]
  obtain ⟨v4, t4, h4⟩ := append_message_shape cfg tok
    ⟨"User", "<stdout>\n" ++ line_numbered_output "" (some 1) (some 1) ++
      "\n</stdout>"⟩ _ hmc
  rw [h4]
  constructor
  · simp
  · exact alGet_alInsert _ _ _

/-- Witness for the amended C3 at the fresh state and file "/f". -/
theorem c3_witness :
    (handle_selection_event defaultConfig charApproxTokenizer "/f" 0
      newCSMState).messages.map (·.from') =
      newCSMState.messages.map (·.from') ++
        ["Assistant", "User", "Assistant", "User"] ∧
    alGet (handle_selection_event defaultConfig charApproxTokenizer "/f" 0
      newCSMState).per_file_viewport "/f" = some (some ⟨1, 1⟩) :=
  c3_empty_selection_emits_viewport_pair defaultConfig charApproxTokenizer
    newCSMState "/f" 0 rfl rfl rfl rfl rfl rfl


/-- C3 as stated is false: a pure-selection event on a file whose content
is the empty string (here: a file never opened, on the fresh state) does
emit messages — the code computes `total_lines = 1` for empty content
(splitting "" on LF yields one empty line), so the viewport is `{1, 1}`,
not empty, and the handler appends the capture pair and the viewport pair
(four messages), also caching the viewport. -/
theorem c3_claim_counterexample :
    get_file_content newCSMState "/f" = "" ∧
    (handle_selection_event defaultConfig charApproxTokenizer "/f" 0
      newCSMState).messages ≠ [] ∧
    (handle_selection_event defaultConfig charApproxTokenizer "/f" 0
      newCSMState).messages.length = 4 ∧
    handle_selection_event defaultConfig charApproxTokenizer "/f" 0
      newCSMState ≠ newCSMState := by
  refine ⟨by decide, by decide, by decide, by decide⟩

theorem msgInv_new (cfg : Config) : MsgInv cfg newCSMState := by
  refine ⟨fun _ => rfl, by simp [newCSMState], fun mc _ h => by simp [newCSMState] at h, ?_⟩
  intro c hc
  simp [newCSMState] at hc

theorem msgInv_of_eq (cfg : Config) (s s' : CSMState)
    (h1 : s'.messages = s.messages)
    (h2 : s'.current_tokens = s.current_tokens)
    (h3 : s'.finalized_conversations = s.finalized_conversations)
    (h : MsgInv cfg s) : MsgInv cfg s' := by
  unfold MsgInv at h ⊢
  rw [h1, h2, h3]
  exact h

theorem two_roles_two_le (l : List ConversationMessage)
    (hu : ∃ m ∈ l, m.from' = "User") (ha : ∃ m ∈ l, m.from' = "Assistant") :
    2 ≤ l.length := by
  match l with
  | [] => rcases hu with ⟨m, hm, _⟩; cases hm
  | [x] =>
      rcases hu with ⟨m1, hm1, hu1⟩
      rcases ha with ⟨m2, hm2, ha2⟩
      rw [List.mem_singleton] at hm1 hm2
      subst hm1; subst hm2
      rw [hu1] at ha2
      exact absurd ha2 (by decide)
  | x :: y :: t => simp only [List.length_cons]; omega

theorem finalize_msgInv (cfg : Config) (s : CSMState) (h : MsgInv cfg s) :
    MsgInv cfg (finalize_current_conversation cfg s) := by
  obtain ⟨h1, h2, h3, h4⟩ := h
  unfold finalize_current_conversation
  by_cases he : s.messages.isEmpty
  · rw [if_pos he]
    exact ⟨h1, h2, h3, h4⟩
  · rw [if_neg he]
    simp only []
    by_cases hck : s.messages.length ≥ cfg.min_conversation_messages ∧
        (s.messages.any fun m => m.from' = "User") = true ∧
        (s.messages.any fun m => m.from' = "Assistant") = true
    · rw [if_pos hck]
      refine ⟨fun _ => rfl, by simp, fun mc _ hlen => by simp at hlen, ?_⟩
      intro c hc
      rcases List.mem_append.mp hc with hold | hnew
      · exact h4 c hold
      · rw [List.mem_singleton] at hnew
        subst hnew
        obtain ⟨hl, hu, ha⟩ := hck
        rw [List.any_eq_true] at hu ha
        have hu' : ∃ m ∈ s.messages, m.from' = "User" := by
          rcases hu with ⟨m, hm, hmm⟩
          exact ⟨m, hm, by simpa using hmm⟩
        have ha' : ∃ m ∈ s.messages, m.from' = "Assistant" := by
          rcases ha with ⟨m, hm, hmm⟩
          exact ⟨m, hm, by simpa using hmm⟩
        refine ⟨hl, hu', ha', ?_⟩
        intro mc hmc
        exact h3 mc hmc (two_roles_two_le s.messages hu' ha')
    · rw [if_neg hck]
      refine ⟨fun _ => rfl, by simp, fun mc _ hlen => by simp at hlen, ?_⟩
      intro c hc
      exact h4 c hc

theorem finalize_resets (cfg : Config) (s : CSMState) (h : MsgInv cfg s) :
    (finalize_current_conversation cfg s).messages = [] ∧
    (finalize_current_conversation cfg s).current_tokens = 0 := by
  unfold finalize_current_conversation
  by_cases he : s.messages.isEmpty
  · rw [if_pos he]
    rw [List.isEmpty_iff] at he
    exact ⟨he, h.1 he⟩
  · rw [if_neg he]
    simp only []
    by_cases hck : s.messages.length ≥ cfg.min_conversation_messages ∧
        (s.messages.any fun m => m.from' = "User") = true ∧
        (s.messages.any fun m => m.from' = "Assistant") = true
    · rw [if_pos hck]; exact ⟨rfl, by trivial⟩
    · rw [if_neg hck]; exact ⟨rfl, by trivial⟩

theorem push_msgInv (cfg : Config) (s : CSMState) (m : ConversationMessage)
    (t : Nat) (ht : t ≤ cfg.max_tokens_per_message)
    (hroll : ∀ mc, cfg.max_tokens_per_conversation = some mc →
      ¬ s.messages.isEmpty = true → s.current_tokens + t ≤ mc)
    (h : MsgInv cfg s) :
    MsgInv cfg { s with messages := s.messages ++ [m],
                        current_tokens := s.current_tokens + t } := by
  obtain ⟨h1, h2, h3, h4⟩ := h
  refine ⟨fun hx => by simp at hx, ?_, ?_, h4⟩
  · simp only [List.length_append, List.length_singleton]
    calc s.current_tokens + t ≤
        s.messages.length * cfg.max_tokens_per_message +
          cfg.max_tokens_per_message := Nat.add_le_add h2 ht
      _ = (s.messages.length + 1) * cfg.max_tokens_per_message := by ring
  · intro mc hmc hlen
    show s.current_tokens + t ≤ mc + cfg.max_tokens_per_message - 1
    by_cases hemp : s.messages.isEmpty = true
    · rw [List.isEmpty_iff] at hemp
      rw [hemp] at hlen
      simp at hlen
    · have hle := hroll mc hmc hemp
      by_cases hcap : cfg.max_tokens_per_message = 0
      · have h20 : s.messages.length * cfg.max_tokens_per_message = 0 := by
          rw [hcap]; ring
        omega
      · omega

theorem appendCore_msgInv (cfg : Config) (s : CSMState)
    (m : ConversationMessage) (t : Nat)
    (ht : t ≤ cfg.max_tokens_per_message) (h : MsgInv cfg s) :
    MsgInv cfg
      (let s2 := match cfg.max_tokens_per_conversation with
        | some max_tokens =>
            if s.current_tokens + t > max_tokens ∧
                ¬ s.messages.isEmpty = true then
              finalize_current_conversation cfg s
            else s
        | none => s
      { s2 with messages := s2.messages ++ [m],
                current_tokens := s2.current_tokens + t }) := by
  cases hmc : cfg.max_tokens_per_conversation with
  | none =>
      simp only []
      exact push_msgInv cfg s m t ht
        (fun mc hmc' => by rw [hmc] at hmc'; cases hmc') h
  | some max_tokens =>
      simp only []
      by_cases htr : s.current_tokens + t > max_tokens ∧
          ¬ s.messages.isEmpty = true
      · rw [if_pos htr]
        have hres := finalize_resets cfg s h
        refine push_msgInv cfg _ m t ht ?_ (finalize_msgInv cfg s h)
        intro mc _ hne
        rw [hres.1] at hne
        simp at hne
      · rw [if_neg htr]
        refine push_msgInv cfg s m t ht ?_ h
        intro mc hmc' hne
        rw [hmc] at hmc'
        rw [Option.some.injEq] at hmc'
        subst hmc'
        rcases not_and_or.mp htr with hx | hx
        · omega
        · exact absurd hne (by simpa using hx)

theorem append_msgInv (cfg : Config) (tok : Tokenizer)
    (m : ConversationMessage) (s : CSMState) (h : MsgInv cfg s) :
    MsgInv cfg (append_message cfg tok m s) := by
  unfold append_message
  by_cases htrunc : tok.count_tokens m.value > cfg.max_tokens_per_message
  · simp only [if_pos htrunc]
    exact appendCore_msgInv cfg s _ cfg.max_tokens_per_message (le_refl _) h
  · simp only [if_neg htrunc]
    exact appendCore_msgInv cfg s m (tok.count_tokens m.value) (by omega) h

theorem maybe_capture_msgInv (cfg : Config) (tok : Tokenizer)
    (file_path content : String) (s : CSMState) (h : MsgInv cfg s) :
    MsgInv cfg (maybe_capture_file_contents cfg tok file_path content s) := by
  unfold maybe_capture_file_contents
  split
  · exact h
  · exact append_msgInv cfg tok _ _ (append_msgInv cfg tok _ _ h)

theorem flush_terminal_msgInv (cfg : Config) (tok : Tokenizer) (s : CSMState)
    (h : MsgInv cfg s) : MsgInv cfg (flush_terminal_output_buffer cfg tok s) := by
  unfold flush_terminal_output_buffer
  by_cases he : s.terminal_output_buffer.isEmpty
  · rw [if_pos he]; exact h
  · rw [if_neg he]
    simp only []
    repeat' split
    all_goals first
      | exact append_msgInv cfg tok _ _ h
      | exact h

theorem flush_pending_msgInv (cfg : Config) (tok : Tokenizer) (f : String)
    (s s' : CSMState)
    (hok : flush_pending_edit_for_file cfg tok f s = Except.ok s')
    (h : MsgInv cfg s) : MsgInv cfg s' := by
  unfold flush_pending_edit_for_file at hok
  cases halg : alGet s.pending_edits_before f with
  | none =>
      rw [halg] at hok
      have h2 : Except.ok s = Except.ok s' := hok
      injection h2 with hx
      subst hx; exact h
  | some o =>
      cases o with
      | none =>
          rw [halg] at hok
          have h2 : Except.ok s = Except.ok s' := hok
          injection h2 with hx
          subst hx; exact h
      | some before =>
          rw [halg] at hok
          simp only [] at hok
          by_cases heq : trimEndMatchesLF before.data =
              trimEndMatchesLF ((alGet s.file_states f).getD "").data
          · rw [if_pos heq] at hok
            injection hok with hx
            subst hx; exact h
          · rw [if_neg heq] at hok
            cases hcmp : compute_changed_block_lines before
                ((alGet s.file_states f).getD "") with
            | error e => rw [hcmp] at hok; exact Except.noConfusion hok
            | ok changed =>
                rw [hcmp] at hok
                simp only [] at hok
                injection hok with hx
                subst hx
                exact append_msgInv cfg tok _ _ (append_msgInv cfg tok _ _
                  (maybe_capture_msgInv cfg tok _ _ _ h))

theorem flush_in_order_msgInv (cfg : Config) (tok : Tokenizer) :
    ∀ (files : List String) (s s' : CSMState),
    flush_pending_edits_in_order cfg tok files s = Except.ok s' →
    MsgInv cfg s → MsgInv cfg s'
  | [], s, s', hok, h => by
      have h2 : Except.ok s = Except.ok s' := hok
      injection h2 with hx
      subst hx; exact h
  | f :: fs, s, s', hok, h => by
      unfold flush_pending_edits_in_order at hok
      rw [List.foldlM_cons] at hok
      cases hfx : flush_pending_edit_for_file cfg tok f s with
      | error e => rw [hfx] at hok; exact Except.noConfusion hok
      | ok s1 =>
          rw [hfx] at hok
          exact flush_in_order_msgInv cfg tok fs s1 s' hok
            (flush_pending_msgInv cfg tok f s s1 hfx h)

theorem flush_all_msgInv (cfg : Config) (tok : Tokenizer) (s s' : CSMState)
    (hok : flush_all_pending_edits cfg tok s = Except.ok s')
    (h : MsgInv cfg s) : MsgInv cfg s' := by
  unfold flush_all_pending_edits at hok
  exact flush_in_order_msgInv cfg tok _ s s' hok h

theorem tab_msgInv (cfg : Config) (tok : Tokenizer) (file : String)
    (text : Option String) (s s' : CSMState)
    (hok : handle_tab_event cfg tok file text s = Except.ok s')
    (h : MsgInv cfg s) : MsgInv cfg s' := by
  unfold handle_tab_event at hok
  cases hfa : flush_all_pending_edits cfg tok s with
  | error e => rw [hfa] at hok; exact Except.noConfusion hok
  | ok s1 =>
      rw [hfa] at hok
      simp only [] at hok
      have h1 : MsgInv cfg (flush_terminal_output_buffer cfg tok s1) :=
        flush_terminal_msgInv cfg tok s1 (flush_all_msgInv cfg tok s s1 hfa h)
      cases text with
      | some t =>
          simp only [] at hok
          injection hok with hx
          subst hx
          exact append_msgInv cfg tok _ _ (append_msgInv cfg tok _ _ h1)
      | none =>
          simp only [] at hok
          repeat' split at hok
          all_goals
            (injection hok with hx
             subst hx
             first
               | exact h1
               | exact append_msgInv cfg tok _ _ (append_msgInv cfg tok _ _
                   (maybe_capture_msgInv cfg tok _ _ _ h1)))

theorem content_msgInv (cfg : Config) (tok : Tokenizer) (file : String)
    (offset length : Nat) (new_text : String) (s s' : CSMState)
    (hok : handle_content_event cfg tok file offset length new_text s =
      Except.ok s')
    (h : MsgInv cfg s) : MsgInv cfg s' := by
  unfold handle_content_event at hok
  simp only [] at hok
  have h1 : MsgInv cfg (flush_terminal_output_buffer cfg tok s) :=
    flush_terminal_msgInv cfg tok s h
  split at hok
  · exact Except.noConfusion hok
  · rename_i sm heqFL
    have h2 : MsgInv cfg sm := by
      split at heqFL
      · split at heqFL
        · exact flush_pending_msgInv cfg tok file _ sm heqFL h1
        · injection heqFL with hx
          subst hx; exact h1
      · injection heqFL with hx
        subst hx; exact h1
    repeat' split at hok
    all_goals
      (injection hok with hx
       subst hx
       exact h2)

theorem selection_msgInv (cfg : Config) (tok : Tokenizer) (file : String)
    (offset : Nat) (s : CSMState) (h : MsgInv cfg s) :
    MsgInv cfg (handle_selection_event cfg tok file offset s) := by
  unfold handle_selection_event
  split
  · exact h
  · simp only []
    repeat' split
    all_goals first
      | exact flush_terminal_msgInv cfg tok s h
      | exact append_msgInv cfg tok _ _ (append_msgInv cfg tok _ _
          (maybe_capture_msgInv cfg tok _ _ _
            (flush_terminal_msgInv cfg tok s h)))

theorem termCmd_msgInv (cfg : Config) (tok : Tokenizer) (command : String)
    (s s' : CSMState)
    (hok : handle_terminal_command_event cfg tok command s = Except.ok s')
    (h : MsgInv cfg s) : MsgInv cfg s' := by
  unfold handle_terminal_command_event at hok
  cases hfa : flush_all_pending_edits cfg tok s with
  | error e => rw [hfa] at hok; exact Except.noConfusion hok
  | ok s1 =>
      rw [hfa] at hok
      simp only [] at hok
      injection hok with hx
      subst hx
      exact append_msgInv cfg tok _ _ (flush_terminal_msgInv cfg tok s1
        (flush_all_msgInv cfg tok s s1 hfa h))

theorem termOut_msgInv (cfg : Config) (output : String) (s : CSMState)
    (h : MsgInv cfg s) :
    MsgInv cfg (handle_terminal_output_event output s) :=
  msgInv_of_eq cfg s _ rfl rfl rfl h

theorem termFocus_msgInv (cfg : Config) (tok : Tokenizer) (s s' : CSMState)
    (hok : handle_terminal_focus_event cfg tok s = Except.ok s')
    (h : MsgInv cfg s) : MsgInv cfg s' := by
  unfold handle_terminal_focus_event at hok
  cases hfa : flush_all_pending_edits cfg tok s with
  | error e => rw [hfa] at hok; exact Except.noConfusion hok
  | ok s1 =>
      rw [hfa] at hok
      have h2 : Except.ok (flush_terminal_output_buffer cfg tok s1) =
          Except.ok s' := hok
      injection h2 with hx
      subst hx
      exact flush_terminal_msgInv cfg tok s1
        (flush_all_msgInv cfg tok s s1 hfa h)

theorem git_msgInv (cfg : Config) (tok : Tokenizer) (msg : String)
    (s s' : CSMState)
    (hok : handle_git_branch_checkout_event cfg tok msg s = Except.ok s')
    (h : MsgInv cfg s) : MsgInv cfg s' := by
  unfold handle_git_branch_checkout_event at hok
  cases hfa : flush_all_pending_edits cfg tok s with
  | error e => rw [hfa] at hok; exact Except.noConfusion hok
  | ok s1 =>
      rw [hfa] at hok
      simp only [] at hok
      have h1 : MsgInv cfg (flush_terminal_output_buffer cfg tok s1) :=
        flush_terminal_msgInv cfg tok s1 (flush_all_msgInv cfg tok s s1 hfa h)
      cases hbc : branch_checkout_command msg with
      | none =>
          rw [hbc] at hok
          injection hok with hx
          subst hx; exact h1
      | some cmd =>
          rw [hbc] at hok
          injection hok with hx
          subst hx
          exact append_msgInv cfg tok _ _ h1

theorem processEvent_msgInv (cfg : Config) (tok : Tokenizer) (s : CSMState)
    (e : Event) (s' : CSMState)
    (hok : processEvent cfg tok s e = Except.ok s')
    (h : MsgInv cfg s) : MsgInv cfg s' := by
  cases e with
  | tab file text => exact tab_msgInv cfg tok file text s s' hok h
  | content file offset length new_text =>
      exact content_msgInv cfg tok file offset length new_text s s' hok h
  | selection file offset =>
      have h2 : Except.ok (handle_selection_event cfg tok file offset s) =
          Except.ok s' := hok
      injection h2 with hx
      subst hx
      exact selection_msgInv cfg tok file offset s h
  | terminalCommand command => exact termCmd_msgInv cfg tok command s s' hok h
  | terminalOutput output =>
      have h2 : Except.ok (handle_terminal_output_event output s) =
          Except.ok s' := hok
      injection h2 with hx
      subst hx
      exact termOut_msgInv cfg output s h
  | terminalFocus => exact termFocus_msgInv cfg tok s s' hok h
  | gitBranchCheckout message => exact git_msgInv cfg tok message s s' hok h

theorem processFold_msgInv (cfg : Config) (tok : Tokenizer) :
    ∀ (events : List Event) (s s' : CSMState),
    events.foldlM (processEvent cfg tok) s = Except.ok s' →
    MsgInv cfg s → MsgInv cfg s'
  | [], s, s', hok, h => by
      have h2 : Except.ok s = Except.ok s' := hok
      injection h2 with hx
      subst hx; exact h
  | e :: es, s, s', hok, h => by
      rw [List.foldlM_cons] at hok
      cases hpe : processEvent cfg tok s e with
      | error err => rw [hpe] at hok; exact Except.noConfusion hok
      | ok s1 =>
          rw [hpe] at hok
          exact processFold_msgInv cfg tok es s1 s' hok
            (processEvent_msgInv cfg tok s e s1 hpe h)

theorem processEvents_msgInv (cfg : Config) (tok : Tokenizer)
    (events : List Event) (s : CSMState)
    (hok : processEvents cfg tok events = Except.ok s) : MsgInv cfg s :=
  processFold_msgInv cfg tok events newCSMState s hok (msgInv_new cfg)

theorem get_conversations_good (cfg : Config) (tok : Tokenizer) (s : CSMState)
    (convs : List FinalizedConversation) (s2 : CSMState)
    (hok : get_conversations cfg tok s = Except.ok (convs, s2))
    (h : MsgInv cfg s) : ∀ c ∈ convs, GoodConv cfg c := by
  unfold get_conversations at hok
  cases hfa : flush_all_pending_edits cfg tok s with
  | error e => rw [hfa] at hok; exact Except.noConfusion hok
  | ok s1 =>
      rw [hfa] at hok
      simp only [] at hok
      injection hok with hx
      have hfin := finalize_msgInv cfg (flush_terminal_output_buffer cfg tok s1)
        (flush_terminal_msgInv cfg tok s1 (flush_all_msgInv cfg tok s s1 hfa h))
      have hconvs : convs = (finalize_current_conversation cfg
          (flush_terminal_output_buffer cfg tok s1)).finalized_conversations :=
        (congrArg Prod.fst hx).symm
      intro c hc
      rw [hconvs] at hc
      exact hfin.2.2.2 c hc

/-- C4: for every event sequence processed under a configured
`max_tokens_per_conversation`, every finalized conversation's token count is
at most `max_tokens_per_conversation + max_tokens_per_message - 1`, both for
the conversations finalized during processing and for those drained by
`get_conversations`. -/
theorem c4_finalized_token_bound (cfg : Config) (tok : Tokenizer)
    (events : List Event) (s : CSMState) (mc : Nat)
    (hrun : processEvents cfg tok events = Except.ok s)
    (hmc : cfg.max_tokens_per_conversation = some mc) :
    (∀ c ∈ s.finalized_conversations,
      c.token_count ≤ mc + cfg.max_tokens_per_message - 1) ∧
    ∀ convs s2, get_conversations cfg tok s = Except.ok (convs, s2) →
      ∀ c ∈ convs, c.token_count ≤ mc + cfg.max_tokens_per_message - 1 := by
  have h : MsgInv cfg s :=
    processFold_msgInv cfg tok events newCSMState s hrun (msgInv_new cfg)
  constructor
  · intro c hc
    exact (h.2.2.2 c hc).2.2.2 mc hmc
  · intro convs s2 hok c hc
    exact ((get_conversations_good cfg tok s convs s2 hok h) c hc).2.2.2 mc hmc

/-- Witness for C4: the run of `witnessEventsA` under `witnessConfig`
(budget 1000, cap 50) finalizes `c4WitnessConv`, and the theorem bounds its
token count by 1000 + 50 - 1. -/
theorem c4_witness :
    witnessConfig.max_tokens_per_conversation = some 1000 ∧
    c4WitnessConv.token_count ≤
      1000 + witnessConfig.max_tokens_per_message - 1 := by
  have h := c4_finalized_token_bound witnessConfig charApproxTokenizer
    witnessEventsA c4WitnessState 1000 (by rfl) (by rfl)
  exact ⟨rfl, h.2 c4WitnessPair.1 c4WitnessPair.2 (by rfl) c4WitnessConv
    (by decide)⟩

/-- C5: every conversation that enters `finalized_conversations` — during
processing or at the final drain — has at least
`min_conversation_messages` messages, at least one User message and at
least one Assistant message; a chunk failing the check is discarded. -/
theorem c5_finalized_min_messages_and_roles (cfg : Config) (tok : Tokenizer)
    (events : List Event) (s : CSMState)
    (hrun : processEvents cfg tok events = Except.ok s) :
    (∀ c ∈ s.finalized_conversations,
      cfg.min_conversation_messages ≤ c.messages.length ∧
      (∃ m ∈ c.messages, m.from' = "User") ∧
      (∃ m ∈ c.messages, m.from' = "Assistant")) ∧
    ∀ convs s2, get_conversations cfg tok s = Except.ok (convs, s2) →
      ∀ c ∈ convs,
        cfg.min_conversation_messages ≤ c.messages.length ∧
        (∃ m ∈ c.messages, m.from' = "User") ∧
        (∃ m ∈ c.messages, m.from' = "Assistant") := by
  have h : MsgInv cfg s :=
    processFold_msgInv cfg tok events newCSMState s hrun (msgInv_new cfg)
  constructor
  · intro c hc
    have hg := h.2.2.2 c hc
    exact ⟨hg.1, hg.2.1, hg.2.2.1⟩
  · intro convs s2 hok c hc
    have hg := (get_conversations_good cfg tok s convs s2 hok h) c hc
    exact ⟨hg.1, hg.2.1, hg.2.2.1⟩

/-- Witness for C5: the conversation finalized by the `witnessEventsA` run
has at least `min_conversation_messages = 2` messages and both roles. -/
theorem c5_witness :
    witnessConfig.min_conversation_messages ≤
      c5WitnessConv.messages.length ∧
    (∃ m ∈ c5WitnessConv.messages, m.from' = "User") ∧
    (∃ m ∈ c5WitnessConv.messages, m.from' = "Assistant") :=
  (c5_finalized_min_messages_and_roles witnessConfig charApproxTokenizer
    witnessEventsA c5WitnessState (by rfl)).2 c5WitnessPair.1
    c5WitnessPair.2 (by rfl) c5WitnessConv (by decide)

theorem matchAt_zero {α : Type} (a b : List α) (i j : Nat) :
    IsMatchAt a b i j 0 := fun t ht => absurd ht (Nat.not_lt_zero t)

theorem matchAt_concat {α : Type} {a b : List α} {i j n k : Nat}
    (h1 : IsMatchAt a b i j n) (h2 : IsMatchAt a b (i + n) (j + n) k) :
    IsMatchAt a b i j (n + k) := by
  intro t ht
  by_cases hlt : t < n
  · exact h1 t hlt
  · have h3 := h2 (t - n) (by omega)
    have hi : i + n + (t - n) = i + t := by omega
    have hj : j + n + (t - n) = j + t := by omega
    rw [hi, hj] at h3
    exact h3

theorem matchAt_snoc {α : Type} {a b : List α} {i j n : Nat}
    (h1 : IsMatchAt a b i j n) (hs : (a.get? (i + n)).isSome)
    (he : a.get? (i + n) = b.get? (j + n)) : IsMatchAt a b i j (n + 1) := by
  intro t ht
  by_cases hlt : t < n
  · exact h1 t hlt
  · have htn : t = n := by omega
    subst htn
    exact ⟨hs, he⟩

theorem matchAt_cons {α : Type} {a b : List α} {i j n : Nat}
    (hi : 1 ≤ i) (hj : 1 ≤ j)
    (hs : (a.get? (i - 1)).isSome) (he : a.get? (i - 1) = b.get? (j - 1))
    (h1 : IsMatchAt a b i j n) : IsMatchAt a b (i - 1) (j - 1) (n + 1) := by
  intro t ht
  cases t with
  | zero =>
      rw [Nat.add_zero, Nat.add_zero]
      exact ⟨hs, he⟩
  | succ t' =>
      have h2 := h1 t' (by omega)
      have hia : i - 1 + (t' + 1) = i + t' := by omega
      have hja : j - 1 + (t' + 1) = j + t' := by omega
      rw [hia, hja]
      exact h2

theorem matchAt_shift {α : Type} {a b : List α} {i j n : Nat} (s : Nat)
    (hs : s ≤ n) (h : IsMatchAt a b i j n) :
    IsMatchAt a b (i + s) (j + s) (n - s) := by
  intro t ht
  have h2 := h (s + t) (by omega)
  have hia : i + s + t = i + (s + t) := by omega
  have hja : j + s + t = j + (s + t) := by omega
  rw [hia, hja]
  exact h2

theorem matchAt_lt_length {α : Type} {a b : List α} {i j n : Nat}
    (h : IsMatchAt a b i j n) (t : Nat) (ht : t < n) : i + t < a.length := by
  have h2 := (h t ht).1
  rw [List.get?_eq_getElem?, Option.isSome_iff_exists] at h2
  obtain ⟨v, hv⟩ := h2
  exact (List.getElem?_eq_some.mp hv).1

theorem extendBackFuel_spec {α : Type} [DecidableEq α] (a b : List α)
    (alo blo : Nat) : ∀ (fuel besti bestj bestsize : Nat),
    alo ≤ besti → blo ≤ bestj → IsMatchAt a b besti bestj bestsize →
    let r := extendBackFuel a b alo blo fuel besti bestj bestsize
    alo ≤ r.1 ∧ blo ≤ r.2.1 ∧ r.1 + r.2.2 = besti + bestsize ∧
      r.2.1 + r.2.2 = bestj + bestsize ∧ IsMatchAt a b r.1 r.2.1 r.2.2
  | 0, besti, bestj, bestsize, ha, hb, hm =>
      ⟨ha, hb, rfl, rfl, hm⟩
  | fuel + 1, besti, bestj, bestsize, ha, hb, hm => by
      unfold extendBackFuel
      split
      · rename_i hcond
        obtain ⟨h1, h2, h3, h4⟩ := hcond
        have hm' : IsMatchAt a b (besti - 1) (bestj - 1) (bestsize + 1) :=
          matchAt_cons (by omega) (by omega) h3 h4 hm
        have ih := extendBackFuel_spec a b alo blo fuel (besti - 1) (bestj - 1)
          (bestsize + 1) (by omega) (by omega) hm'
        refine ⟨ih.1, ih.2.1, ?_, ?_, ih.2.2.2.2⟩
        · rw [ih.2.2.1]; omega
        · rw [ih.2.2.2.1]; omega
      · exact ⟨ha, hb, rfl, rfl, hm⟩

theorem extendFwdFuel_spec {α : Type} [DecidableEq α] (a b : List α)
    (ahi bhi besti bestj : Nat) : ∀ (fuel bestsize : Nat),
    besti + bestsize ≤ ahi → bestj + bestsize ≤ bhi →
    IsMatchAt a b besti bestj bestsize →
    let n := extendFwdFuel a b ahi bhi besti bestj fuel bestsize
    besti + n ≤ ahi ∧ bestj + n ≤ bhi ∧ IsMatchAt a b besti bestj n
  | 0, bestsize, ha, hb, hm => ⟨ha, hb, hm⟩
  | fuel + 1, bestsize, ha, hb, hm => by
      unfold extendFwdFuel
      split
      · rename_i hcond
        obtain ⟨h1, h2, h3, h4⟩ := hcond
        have hm' : IsMatchAt a b besti bestj (bestsize + 1) :=
          matchAt_snoc hm h3 h4
        exact extendFwdFuel_spec a b ahi bhi besti bestj fuel (bestsize + 1)
          (by omega) (by omega) hm'
      · exact ⟨ha, hb, hm⟩

theorem get?_isSome_of_lt {α : Type} (l : List α) (j : Nat)
    (h : j < l.length) : (l.get? j).isSome := by
  rw [List.get?_eq_getElem?, List.getElem?_eq_getElem h]
  rfl

theorem mem_matchIndices {α : Type} [DecidableEq α] {a b : List α}
    {i blo bhi j : Nat} (h : j ∈ matchIndices a b i blo bhi) :
    blo ≤ j ∧ j < bhi ∧ b.get? j = a.get? i := by
  unfold matchIndices at h
  rw [List.mem_filter] at h
  obtain ⟨hr, hp⟩ := h
  rw [List.mem_range'_1] at hr
  exact ⟨hr.1, by omega, of_decide_eq_true hp⟩

theorem flmRow_inv {α : Type} (a b : List α) (alo blo bhi : Nat) (i ub : Nat)
    (hiu : i < ub) (hbb : bhi ≤ b.length) (hai : alo ≤ i) :
    ∀ (js : List Nat) (prev nj : Nat → Nat) (acc : FlmAcc),
    (∀ j ∈ js, blo ≤ j ∧ j < bhi ∧ b.get? j = a.get? i) →
    RowInv a b alo blo bhi i prev →
    RowInv a b alo blo bhi (i + 1) nj →
    AccInv a b alo blo bhi ub acc →
    RowInv a b alo blo bhi (i + 1) (flmRow i prev js nj acc).1 ∧
      AccInv a b alo blo bhi ub (flmRow i prev js nj acc).2
  | [], prev, nj, acc, hjs, hprev, hnj, hacc => ⟨hnj, hacc⟩
  | j :: js, prev, nj, acc, hjs, hprev, hnj, hacc => by
      obtain ⟨hble, hjb, heq⟩ := hjs j (List.mem_cons_self j js)
      have hbs : (b.get? j).isSome := get?_isSome_of_lt b j (by omega)
      have has : (a.get? i).isSome := heq ▸ hbs
      have hpoint : a.get? i = b.get? j := heq.symm
      -- the new run length k and its recorded match
      have hk : ∀ k, k = (if j = 0 then 0 else prev (j - 1)) + 1 →
          k ≤ j + 1 - blo ∧ k ≤ i + 1 - alo ∧ k ≤ j + 1 ∧ k ≤ i + 1 ∧
          IsMatchAt a b (i + 1 - k) (j + 1 - k) k := by
        intro k hkdef
        by_cases hj0 : j = 0
        · subst hj0
          rw [if_pos rfl] at hkdef
          subst hkdef
          refine ⟨by omega, by omega, by omega, by omega, ?_⟩
          intro t ht
          have ht0 : t = 0 := by omega
          subst ht0
          have hiz : i + 1 - 1 + 0 = i := by omega
          rw [hiz]
          exact ⟨has, hpoint⟩
        · rw [if_neg hj0] at hkdef
          by_cases hp0 : 0 < prev (j - 1)
          · obtain ⟨hb1, hb2, hb3, hb4, hb5, hb6, hbm⟩ := hprev (j - 1) hp0
            subst hkdef
            refine ⟨by omega, by omega, by omega, by omega, ?_⟩
            have hsnoc := matchAt_snoc hbm (?_) (?_)
            · have hi1 : i + 1 - (prev (j - 1) + 1) = i - prev (j - 1) := by
                omega
              have hj1 : j + 1 - (prev (j - 1) + 1) =
                  j - 1 + 1 - prev (j - 1) := by omega
              rw [hi1, hj1]
              exact hsnoc
            · have hie : i - prev (j - 1) + prev (j - 1) = i := by omega
              rw [hie]
              exact has
            · have hie : i - prev (j - 1) + prev (j - 1) = i := by omega
              have hje : j - 1 + 1 - prev (j - 1) + prev (j - 1) = j := by
                omega
              rw [hie, hje]
              exact hpoint
          · have hpz : prev (j - 1) = 0 := by omega
            rw [hpz] at hkdef
            subst hkdef
            refine ⟨by omega, by omega, by omega, by omega, ?_⟩
            intro t ht
            have ht0 : t = 0 := by omega
            subst ht0
            have hiz : i + 1 - 1 + 0 = i := by omega
            have hjz : j + 1 - 1 + 0 = j := by omega
            rw [hiz, hjz]
            exact ⟨has, hpoint⟩
      unfold flmRow
      simp only []
      refine flmRow_inv a b alo blo bhi i ub hiu hbb hai js prev _ _
        (fun x hx => hjs x (List.mem_cons_of_mem j hx)) hprev ?_ ?_
      · -- the updated row map keeps the row invariant
        intro x hx
        simp only [] at hx ⊢
        by_cases hxj : x = j
        · subst hxj
          rw [if_pos rfl] at hx ⊢
          obtain ⟨hk1, hk2, hk3, hk4, hk5⟩ := hk _ rfl
          exact ⟨hble, hjb, hk1, by omega, hk3, hk4, hk5⟩
        · rw [if_neg hxj] at hx ⊢
          exact hnj x hx
      · -- the updated best keeps the accumulator invariant
        by_cases hbig : (if j = 0 then 0 else prev (j - 1)) + 1 > acc.bestsize
        · rw [if_pos hbig]
          obtain ⟨hk1, hk2, hk3, hk4, hk5⟩ := hk _ rfl
          unfold AccInv
          simp only []
          exact ⟨by omega, by omega, by omega, by omega, hk5⟩
        · rw [if_neg hbig]
          exact hacc

theorem flmOuter_inv {α : Type} [DecidableEq α] (a b : List α)
    (alo blo bhi ub : Nat) (hbb : bhi ≤ b.length) :
    ∀ (k i0 : Nat) (prev : Nat → Nat) (acc : FlmAcc),
    alo ≤ i0 → i0 + k ≤ ub →
    RowInv a b alo blo bhi i0 prev →
    AccInv a b alo blo bhi ub acc →
    AccInv a b alo blo bhi ub
      (flmOuter a b blo bhi (List.range' i0 k) prev acc)
  | 0, i0, prev, acc, ha, hk, hprev, hacc => hacc
  | k + 1, i0, prev, acc, ha, hk, hprev, hacc => by
      rw [List.range'_succ i0 k 1]
      unfold flmOuter
      rcases hrw : flmRow i0 prev (matchIndices a b i0 blo bhi)
        (fun _ => 0) acc with ⟨nj, acc2⟩
      simp only [hrw]
      have hrowi := flmRow_inv a b alo blo bhi i0 ub (by omega) hbb ha
        (matchIndices a b i0 blo bhi) prev (fun _ => 0) acc
        (fun j hj => mem_matchIndices hj) hprev
        (fun j hj => absurd hj (lt_irrefl 0)) hacc
      rw [hrw] at hrowi
      exact flmOuter_inv a b alo blo bhi ub hbb k (i0 + 1) nj acc2
        (by omega) (by omega) hrowi.1 hrowi.2

theorem flm_spec {α : Type} [DecidableEq α] (a b : List α)
    (alo ahi blo bhi : Nat) (hao : alo ≤ ahi) (hbo : blo ≤ bhi)
    (hbb : bhi ≤ b.length) :
    alo ≤ (find_longest_match a b alo ahi blo bhi).i ∧
    (find_longest_match a b alo ahi blo bhi).i +
      (find_longest_match a b alo ahi blo bhi).n ≤ ahi ∧
    blo ≤ (find_longest_match a b alo ahi blo bhi).j ∧
    (find_longest_match a b alo ahi blo bhi).j +
      (find_longest_match a b alo ahi blo bhi).n ≤ bhi ∧
    IsMatchAt a b (find_longest_match a b alo ahi blo bhi).i
      (find_longest_match a b alo ahi blo bhi).j
      (find_longest_match a b alo ahi blo bhi).n := by
  have hacc := flmOuter_inv a b alo blo bhi ahi hbb (ahi - alo) alo
    (fun _ => 0) ⟨alo, blo, 0⟩ (le_refl alo) (by omega)
    (fun j hj => absurd hj (lt_irrefl 0))
    ⟨le_refl alo, by show alo + 0 ≤ ahi; omega, le_refl blo,
      by show blo + 0 ≤ bhi; omega, matchAt_zero a b alo blo⟩
  unfold find_longest_match
  simp only []
  obtain ⟨h1, h2, h3, h4, h5⟩ := hacc
  have hback := extendBackFuel_spec a b alo blo
    (flmOuter a b blo bhi (List.range' alo (ahi - alo)) (fun _ => 0)
      ⟨alo, blo, 0⟩).besti
    (flmOuter a b blo bhi (List.range' alo (ahi - alo)) (fun _ => 0)
      ⟨alo, blo, 0⟩).besti
    (flmOuter a b blo bhi (List.range' alo (ahi - alo)) (fun _ => 0)
      ⟨alo, blo, 0⟩).bestj
    (flmOuter a b blo bhi (List.range' alo (ahi - alo)) (fun _ => 0)
      ⟨alo, blo, 0⟩).bestsize h1 h3 h5
  obtain ⟨hb1, hb2, hb3, hb4, hb5⟩ := hback
  have hfwd := extendFwdFuel_spec a b ahi bhi _ _ ahi _
    (by omega) (by omega) hb5
  exact ⟨hb1, hfwd.1, hb2, hfwd.2.1, hfwd.2.2⟩

theorem extendBackFuel_stop {α : Type} [DecidableEq α] (a b : List α)
    (alo blo besti bestj bestsize : Nat) (h : ¬ alo < besti) :
    ∀ fuel, extendBackFuel a b alo blo fuel besti bestj bestsize =
      (besti, bestj, bestsize)
  | 0 => rfl
  | fuel + 1 => by
      unfold extendBackFuel
      rw [if_neg (fun hc => h hc.1)]

theorem extendFwdFuel_stop {α : Type} [DecidableEq α] (a b : List α)
    (ahi bhi besti bestj bestsize : Nat) (h : ¬ besti + bestsize < ahi) :
    ∀ fuel, extendFwdFuel a b ahi bhi besti bestj fuel bestsize = bestsize
  | 0 => rfl
  | fuel + 1 => by
      unfold extendFwdFuel
      rw [if_neg (fun hc => h hc.1)]

theorem flmRow_cons (i : Nat) (p : Nat → Nat) (j : Nat) (js : List Nat)
    (nj : Nat → Nat) (acc : FlmAcc) :
    flmRow i p (j :: js) nj acc =
      flmRow i p js
        (fun x => if x = j then (if j = 0 then 0 else p (j - 1)) + 1 else nj x)
        (if (if j = 0 then 0 else p (j - 1)) + 1 > acc.bestsize then
          ⟨i + 1 - ((if j = 0 then 0 else p (j - 1)) + 1),
           j + 1 - ((if j = 0 then 0 else p (j - 1)) + 1),
           (if j = 0 then 0 else p (j - 1)) + 1⟩
         else acc) := rfl

theorem flmRow_append (i : Nat) (p : Nat → Nat) :
    ∀ (l1 l2 : List Nat) (nj : Nat → Nat) (acc : FlmAcc),
    flmRow i p (l1 ++ l2) nj acc =
      flmRow i p l2 (flmRow i p l1 nj acc).1 (flmRow i p l1 nj acc).2
  | [], l2, nj, acc => rfl
  | j :: l1, l2, nj, acc => by
      rw [List.cons_append, flmRow_cons, flmRow_cons]
      exact flmRow_append i p l1 l2 _ _

theorem dRowMap (r : Nat) (p : Nat → Nat) (hp : ∀ j, p j ≤ min (j + 1) r) :
    ∀ (js : List Nat) (nj : Nat → Nat) (acc : FlmAcc),
    (∀ x, nj x ≤ min (x + 1) (r + 1)) →
    ∀ x, (flmRow r p js nj acc).1 x ≤ min (x + 1) (r + 1)
  | [], nj, acc, hnj, x => hnj x
  | j :: js, nj, acc, hnj, x => by
      rw [flmRow_cons]
      refine dRowMap r p hp js _ _ ?_ x
      intro y
      try simp only []
      by_cases hyj : y = j
      · rw [if_pos hyj]
        subst hyj
        by_cases hj0 : y = 0
        · rw [if_pos hj0]; omega
        · rw [if_neg hj0]
          have := hp (y - 1)
          omega
      · rw [if_neg hyj]
        exact hnj y

theorem dRowFrame (r : Nat) (p : Nat → Nat) :
    ∀ (js : List Nat) (nj : Nat → Nat) (acc : FlmAcc) (x : Nat), x ∉ js →
    (flmRow r p js nj acc).1 x = nj x
  | [], nj, acc, x, hx => rfl
  | j :: js, nj, acc, x, hx => by
      rw [flmRow_cons]
      rw [dRowFrame r p js _ _ x (fun hc => hx (List.mem_cons_of_mem j hc))]
      have hxj : ¬ x = j := fun hc => hx (by rw [hc]; exact List.mem_cons_self j js)
      simp only [if_neg hxj]

theorem dRowAccA (r : Nat) (p : Nat → Nat) (hp : ∀ j, p j ≤ min (j + 1) r) :
    ∀ (js : List Nat), (∀ j ∈ js, j < r) → ∀ (nj : Nat → Nat),
    (flmRow r p js nj ⟨0, 0, r⟩).2 = ⟨0, 0, r⟩
  | [], hjs, nj => rfl
  | j :: js, hjs, nj => by
      have hjr : j < r := hjs j (List.mem_cons_self j js)
      rw [flmRow_cons]
      have hk : ¬ ((if j = 0 then 0 else p (j - 1)) + 1 >
          (⟨0, 0, r⟩ : FlmAcc).bestsize) := by
        simp only []
        by_cases hj0 : j = 0
        · rw [if_pos hj0]; omega
        · rw [if_neg hj0]
          have := hp (j - 1)
          omega
      rw [if_neg hk]
      exact dRowAccA r p hp js (fun x hx => hjs x (List.mem_cons_of_mem j hx)) _

theorem dRowAccB (r : Nat) (p : Nat → Nat) (hp : ∀ j, p j ≤ min (j + 1) r) :
    ∀ (js : List Nat) (nj : Nat → Nat),
    (flmRow r p js nj ⟨0, 0, r + 1⟩).2 = ⟨0, 0, r + 1⟩
  | [], nj => rfl
  | j :: js, nj => by
      rw [flmRow_cons]
      have hk : ¬ ((if j = 0 then 0 else p (j - 1)) + 1 >
          (⟨0, 0, r + 1⟩ : FlmAcc).bestsize) := by
        simp only []
        by_cases hj0 : j = 0
        · rw [if_pos hj0]; omega
        · rw [if_neg hj0]
          have := hp (j - 1)
          omega
      rw [if_neg hk]
      exact dRowAccB r p hp js _

theorem flmOuter_cons {α : Type} [DecidableEq α] (a b : List α)
    (blo bhi i : Nat) (is : List Nat) (p : Nat → Nat) (acc : FlmAcc) :
    flmOuter a b blo bhi (i :: is) p acc =
      flmOuter a b blo bhi is
        (flmRow i p (matchIndices a b i blo bhi) (fun _ => 0) acc).1
        (flmRow i p (matchIndices a b i blo bhi) (fun _ => 0) acc).2 := by
  conv_lhs => rw [flmOuter]

theorem diag_indices_split {α : Type} [DecidableEq α] (a : List α)
    (r n : Nat) (hrn : r < n) :
    matchIndices a a r 0 n =
      ((List.range' 0 r).filter (fun j => a.get? j = a.get? r)) ++
        r :: ((List.range' (r + 1) (n - r - 1)).filter
          (fun j => a.get? j = a.get? r)) := by
  unfold matchIndices
  rw [Nat.sub_zero]
  have h1 : List.range' 0 n = List.range' 0 r ++ List.range' r (n - r) := by
    have h0 := List.range'_append 0 r (n - r) 1
    simp only [Nat.zero_add, Nat.one_mul] at h0
    have h3 : n - r + r = n := by omega
    rw [h3] at h0
    exact h0.symm
  have h2 : List.range' r (n - r) = r :: List.range' (r + 1) (n - r - 1) := by
    have he : n - r = (n - r - 1) + 1 := by omega
    rw [he, List.range'_succ]
    simp
  rw [h1, h2, List.filter_append, List.filter_cons]
  simp

theorem dOuter {α : Type} [DecidableEq α] (a : List α) (n : Nat) :
    ∀ (k r : Nat) (p : Nat → Nat), r + k = n →
    (∀ j, p j ≤ min (j + 1) r) → (1 ≤ r → p (r - 1) = r) →
    flmOuter a a 0 n (List.range' r k) p ⟨0, 0, r⟩ = ⟨0, 0, n⟩
  | 0, r, p, hrk, hp, hd => by
      have hr : r = n := by omega
      subst hr
      rfl
  | k + 1, r, p, hrk, hp, hd => by
      rw [List.range'_succ r k 1, flmOuter_cons]
      rw [diag_indices_split a r n (by omega)]
      rw [flmRow_append]
      rw [dRowAccA r p hp _ (fun j hj => by
        rw [List.mem_filter, List.mem_range'_1] at hj
        omega) (fun _ => 0)]
      rw [flmRow_cons]
      have hK : (if r = 0 then 0 else p (r - 1)) + 1 = r + 1 := by
        by_cases h0 : r = 0
        · rw [if_pos h0]; omega
        · rw [if_neg h0, hd (by omega)]
      simp only [hK]
      have hcond : (⟨0, 0, r⟩ : FlmAcc).bestsize < r + 1 := Nat.lt_succ_self r
      rw [if_pos hcond]
      simp only [Nat.sub_self]
      rw [dRowAccB r p hp _ _]
      have hmapA : ∀ x, (flmRow r p
          ((List.range' 0 r).filter (fun j => a.get? j = a.get? r))
          (fun _ => 0) ⟨0, 0, r⟩).1 x ≤ min (x + 1) (r + 1) :=
        dRowMap r p hp _ _ _ (fun x => Nat.zero_le _)
      have hrB : r ∉ (List.range' (r + 1) (n - r - 1)).filter
          (fun j => a.get? j = a.get? r) := by
        intro hc
        rw [List.mem_filter, List.mem_range'_1] at hc
        omega
      have hmap : ∀ x, (flmRow r p
          ((List.range' (r + 1) (n - r - 1)).filter
            (fun j => a.get? j = a.get? r))
          (fun x => if x = r then r + 1 else (flmRow r p
            ((List.range' 0 r).filter (fun j => a.get? j = a.get? r))
            (fun _ => 0) ⟨0, 0, r⟩).1 x) ⟨0, 0, r + 1⟩).1 x ≤
          min (x + 1) (r + 1) := by
        refine dRowMap r p hp _ _ _ ?_
        intro x
        by_cases hxr : x = r
        · simp only [if_pos hxr]
          omega
        · simp only [if_neg hxr]
          exact hmapA x
      have hdiagEntry : (flmRow r p
          ((List.range' (r + 1) (n - r - 1)).filter
            (fun j => a.get? j = a.get? r))
          (fun x => if x = r then r + 1 else (flmRow r p
            ((List.range' 0 r).filter (fun j => a.get? j = a.get? r))
            (fun _ => 0) ⟨0, 0, r⟩).1 x) ⟨0, 0, r + 1⟩).1 r = r + 1 := by
        rw [dRowFrame r p _ _ _ r hrB]
        simp
      exact dOuter a n k (r + 1) _ (by omega) hmap
        (fun _ => by rw [Nat.add_sub_cancel]; exact hdiagEntry)

theorem flm_diag {α : Type} [DecidableEq α] (a : List α) :
    find_longest_match a a 0 a.length 0 a.length = ⟨0, 0, a.length⟩ := by
  have hout : flmOuter a a 0 a.length (List.range' 0 (a.length - 0))
      (fun _ => 0) ⟨0, 0, 0⟩ = ⟨0, 0, a.length⟩ := by
    rw [Nat.sub_zero]
    exact dOuter a a.length a.length 0 (fun _ => 0) (by omega)
      (fun j => Nat.zero_le _) (fun h => absurd h (by omega))
  unfold find_longest_match
  simp only []
  rw [hout]
  simp only []
  rw [extendBackFuel_stop a a 0 0 0 0 a.length (by omega) 0]
  simp only []
  rw [extendFwdFuel_stop a a a.length a.length 0 0 a.length (by omega)
    a.length]

theorem inorder_succ {α : Type} [DecidableEq α] (a b : List α) (fuel : Nat)
    (w : Window) :
    inorderFuel a b (fuel + 1) w =
      if (find_longest_match a b w.alo w.ahi w.blo w.bhi).n = 0 then []
      else
        (if w.alo < (find_longest_match a b w.alo w.ahi w.blo w.bhi).i ∧
            w.blo < (find_longest_match a b w.alo w.ahi w.blo w.bhi).j then
          inorderFuel a b fuel
            ⟨w.alo, (find_longest_match a b w.alo w.ahi w.blo w.bhi).i,
             w.blo, (find_longest_match a b w.alo w.ahi w.blo w.bhi).j⟩
         else []) ++
        (find_longest_match a b w.alo w.ahi w.blo w.bhi) ::
        (if (find_longest_match a b w.alo w.ahi w.blo w.bhi).i +
              (find_longest_match a b w.alo w.ahi w.blo w.bhi).n < w.ahi ∧
            (find_longest_match a b w.alo w.ahi w.blo w.bhi).j +
              (find_longest_match a b w.alo w.ahi w.blo w.bhi).n < w.bhi then
          inorderFuel a b fuel
            ⟨(find_longest_match a b w.alo w.ahi w.blo w.bhi).i +
               (find_longest_match a b w.alo w.ahi w.blo w.bhi).n, w.ahi,
             (find_longest_match a b w.alo w.ahi w.blo w.bhi).j +
               (find_longest_match a b w.alo w.ahi w.blo w.bhi).n, w.bhi⟩
         else []) := rfl

theorem inorder_fuel_irrel {α : Type} [DecidableEq α] (a b : List α) :
    ∀ (s : Nat) (w : Window) (fuel1 fuel2 : Nat), sizeW w ≤ s →
    sizeW w < fuel1 → sizeW w < fuel2 →
    w.alo ≤ w.ahi → w.blo ≤ w.bhi → w.bhi ≤ b.length →
    inorderFuel a b fuel1 w = inorderFuel a b fuel2 w := by
  intro s
  induction s with
  | zero =>
      intro w fuel1 fuel2 hs h1 h2 hv1 hv2 hv3
      obtain ⟨f1, rfl⟩ : ∃ f, fuel1 = f + 1 := ⟨fuel1 - 1, by omega⟩
      obtain ⟨f2, rfl⟩ : ∃ f, fuel2 = f + 1 := ⟨fuel2 - 1, by omega⟩
      have hm := flm_spec a b w.alo w.ahi w.blo w.bhi hv1 hv2 hv3
      rw [inorder_succ, inorder_succ]
      have hn : (find_longest_match a b w.alo w.ahi w.blo w.bhi).n = 0 := by
        unfold sizeW at hs
        omega
      rw [if_pos hn, if_pos hn]
  | succ s ih =>
      intro w fuel1 fuel2 hs h1 h2 hv1 hv2 hv3
      obtain ⟨f1, rfl⟩ : ∃ f, fuel1 = f + 1 := ⟨fuel1 - 1, by omega⟩
      obtain ⟨f2, rfl⟩ : ∃ f, fuel2 = f + 1 := ⟨fuel2 - 1, by omega⟩
      have hm := flm_spec a b w.alo w.ahi w.blo w.bhi hv1 hv2 hv3
      rw [inorder_succ, inorder_succ]
      rcases hflm : find_longest_match a b w.alo w.ahi w.blo w.bhi
        with ⟨mi, mj, mn⟩
      rw [hflm] at hm
      simp only [] at hm ⊢
      obtain ⟨hm1, hm2, hm3, hm4, hm5⟩ := hm
      by_cases hn : mn = 0
      · rw [if_pos hn, if_pos hn]
      · rw [if_neg hn, if_neg hn]
        unfold sizeW at hs h1 h2
        have hL : (if w.alo < mi ∧ w.blo < mj then
            inorderFuel a b f1 ⟨w.alo, mi, w.blo, mj⟩ else []) =
            (if w.alo < mi ∧ w.blo < mj then
            inorderFuel a b f2 ⟨w.alo, mi, w.blo, mj⟩ else []) := by
          by_cases hc : w.alo < mi ∧ w.blo < mj
          · rw [if_pos hc, if_pos hc]
            exact ih ⟨w.alo, mi, w.blo, mj⟩ f1 f2
              (by unfold sizeW; simp only []; omega)
              (by unfold sizeW; simp only []; omega)
              (by unfold sizeW; simp only []; omega)
              (by simp only []; omega) (by simp only []; omega)
              (by simp only []; omega)
          · rw [if_neg hc, if_neg hc]
        have hR : (if mi + mn < w.ahi ∧ mj + mn < w.bhi then
            inorderFuel a b f1 ⟨mi + mn, w.ahi, mj + mn, w.bhi⟩ else []) =
            (if mi + mn < w.ahi ∧ mj + mn < w.bhi then
            inorderFuel a b f2 ⟨mi + mn, w.ahi, mj + mn, w.bhi⟩ else []) := by
          by_cases hc : mi + mn < w.ahi ∧ mj + mn < w.bhi
          · rw [if_pos hc, if_pos hc]
            exact ih ⟨mi + mn, w.ahi, mj + mn, w.bhi⟩ f1 f2
              (by unfold sizeW; simp only []; omega)
              (by unfold sizeW; simp only []; omega)
              (by unfold sizeW; simp only []; omega)
              (by simp only []; omega) (by simp only []; omega)
              (by simp only []; omega)
          · rw [if_neg hc, if_neg hc]
        rw [hL, hR]

theorem inorder_good {α : Type} [DecidableEq α] (a b : List α) :
    ∀ (s : Nat) (w : Window) (fuel : Nat), sizeW w ≤ s → sizeW w < fuel →
    w.alo ≤ w.ahi → w.blo ≤ w.bhi → w.bhi ≤ b.length →
    (∀ x ∈ inorderFuel a b fuel w,
      w.alo ≤ x.i ∧ x.i + x.n ≤ w.ahi ∧ w.blo ≤ x.j ∧ x.j + x.n ≤ w.bhi ∧
      1 ≤ x.n ∧ IsMatchAt a b x.i x.j x.n) ∧
    List.Chain' gapRel (inorderFuel a b fuel w) := by
  intro s
  induction s with
  | zero =>
      intro w fuel hs h1 hv1 hv2 hv3
      obtain ⟨f, rfl⟩ : ∃ f, fuel = f + 1 := ⟨fuel - 1, by omega⟩
      have hm := flm_spec a b w.alo w.ahi w.blo w.bhi hv1 hv2 hv3
      rw [inorder_succ]
      have hn : (find_longest_match a b w.alo w.ahi w.blo w.bhi).n = 0 := by
        unfold sizeW at hs
        omega
      rw [if_pos hn]
      exact ⟨fun x hx => absurd hx (List.not_mem_nil x), List.chain'_nil⟩
  | succ s ih =>
      intro w fuel hs h1 hv1 hv2 hv3
      obtain ⟨f, rfl⟩ : ∃ f, fuel = f + 1 := ⟨fuel - 1, by omega⟩
      have hm := flm_spec a b w.alo w.ahi w.blo w.bhi hv1 hv2 hv3
      rw [inorder_succ]
      rcases hflm : find_longest_match a b w.alo w.ahi w.blo w.bhi
        with ⟨mi, mj, mn⟩
      rw [hflm] at hm
      simp only [] at hm ⊢
      obtain ⟨hm1, hm2, hm3, hm4, hm5⟩ := hm
      by_cases hn : mn = 0
      · rw [if_pos hn]
        exact ⟨fun x hx => absurd hx (List.not_mem_nil x), List.chain'_nil⟩
      · rw [if_neg hn]
        unfold sizeW at hs h1
        have hLgood : (∀ x ∈ (if w.alo < mi ∧ w.blo < mj then
              inorderFuel a b f ⟨w.alo, mi, w.blo, mj⟩ else []),
            w.alo ≤ x.i ∧ x.i + x.n ≤ mi ∧ w.blo ≤ x.j ∧ x.j + x.n ≤ mj ∧
            1 ≤ x.n ∧ IsMatchAt a b x.i x.j x.n) ∧
            List.Chain' gapRel (if w.alo < mi ∧ w.blo < mj then
              inorderFuel a b f ⟨w.alo, mi, w.blo, mj⟩ else []) := by
          by_cases hc : w.alo < mi ∧ w.blo < mj
          · rw [if_pos hc]
            exact ih ⟨w.alo, mi, w.blo, mj⟩ f
              (by unfold sizeW; simp only []; omega)
              (by unfold sizeW; simp only []; omega)
              (by simp only []; omega) (by simp only []; omega)
              (by simp only []; omega)
          · rw [if_neg hc]
            exact ⟨fun x hx => absurd hx (List.not_mem_nil x),
              List.chain'_nil⟩
        have hRgood : (∀ x ∈ (if mi + mn < w.ahi ∧ mj + mn < w.bhi then
              inorderFuel a b f ⟨mi + mn, w.ahi, mj + mn, w.bhi⟩ else []),
            mi + mn ≤ x.i ∧ x.i + x.n ≤ w.ahi ∧ mj + mn ≤ x.j ∧
            x.j + x.n ≤ w.bhi ∧ 1 ≤ x.n ∧ IsMatchAt a b x.i x.j x.n) ∧
            List.Chain' gapRel (if mi + mn < w.ahi ∧ mj + mn < w.bhi then
              inorderFuel a b f ⟨mi + mn, w.ahi, mj + mn, w.bhi⟩ else []) := by
          by_cases hc : mi + mn < w.ahi ∧ mj + mn < w.bhi
          · rw [if_pos hc]
            exact ih ⟨mi + mn, w.ahi, mj + mn, w.bhi⟩ f
              (by unfold sizeW; simp only []; omega)
              (by unfold sizeW; simp only []; omega)
              (by simp only []; omega) (by simp only []; omega)
              (by simp only []; omega)
          · rw [if_neg hc]
            exact ⟨fun x hx => absurd hx (List.not_mem_nil x),
              List.chain'_nil⟩
        constructor
        · intro x hx
          rw [List.mem_append] at hx
          rcases hx with hx | hx
          · have := hLgood.1 x hx
            exact ⟨by omega, by omega, by omega, by omega, by omega,
              this.2.2.2.2.2⟩
          · rw [List.mem_cons] at hx
            rcases hx with hx | hx
            · subst hx
              exact ⟨hm1, hm2, hm3, hm4, by simp only []; omega, hm5⟩
            · have := hRgood.1 x hx
              exact ⟨by omega, by omega, by omega, by omega, by omega,
                this.2.2.2.2.2⟩
        · rw [List.chain'_append]
          refine ⟨hLgood.2, ?_, ?_⟩
          · rw [List.chain'_cons']
            refine ⟨?_, hRgood.2⟩
            intro y hy
            have := hRgood.1 y (List.mem_of_mem_head? hy)
            exact ⟨by simp only []; omega, by simp only []; omega⟩
          · intro x hx y hy
            have hxm := hLgood.1 x (List.mem_of_mem_getLast? hx)
            have hym : y = DiffMatch.mk mi mj mn := by
              rw [List.head?_cons] at hy
              exact (Option.mem_some_iff.mp hy).symm
            subst hym
            exact ⟨by simp only []; omega, by simp only []; omega⟩

theorem processStack_succ {α : Type} [DecidableEq α] (a b : List α)
    (fuel : Nat) (w : Window) (rest : List Window) :
    processStackFuel a b (fuel + 1) (w :: rest) =
      if (find_longest_match a b w.alo w.ahi w.blo w.bhi).n = 0 then
        processStackFuel a b fuel rest
      else
        (find_longest_match a b w.alo w.ahi w.blo w.bhi) ::
          processStackFuel a b fuel
            ((if (find_longest_match a b w.alo w.ahi w.blo w.bhi).i +
                  (find_longest_match a b w.alo w.ahi w.blo w.bhi).n < w.ahi ∧
                (find_longest_match a b w.alo w.ahi w.blo w.bhi).j +
                  (find_longest_match a b w.alo w.ahi w.blo w.bhi).n < w.bhi
              then
                [Window.mk ((find_longest_match a b w.alo w.ahi w.blo
                    w.bhi).i + (find_longest_match a b w.alo w.ahi w.blo
                    w.bhi).n) w.ahi ((find_longest_match a b w.alo w.ahi
                    w.blo w.bhi).j + (find_longest_match a b w.alo w.ahi
                    w.blo w.bhi).n) w.bhi]
              else []) ++
             (if w.alo < (find_longest_match a b w.alo w.ahi w.blo w.bhi).i ∧
                w.blo < (find_longest_match a b w.alo w.ahi w.blo w.bhi).j
              then
                [Window.mk w.alo (find_longest_match a b w.alo w.ahi w.blo
                    w.bhi).i w.blo (find_longest_match a b w.alo w.ahi w.blo
                    w.bhi).j]
              else []) ++ rest) := rfl

theorem measureStack_cons (w : Window) (ws : List Window) :
    measureStack (w :: ws) = sizeW w + 1 + measureStack ws := by
  unfold measureStack
  rw [List.map_cons, List.sum_cons]

theorem measureStack_append (l1 l2 : List Window) :
    measureStack (l1 ++ l2) = measureStack l1 + measureStack l2 := by
  unfold measureStack
  rw [List.map_append, List.sum_append]

theorem stack_perm {α : Type} [DecidableEq α] (a b : List α) :
    ∀ (fuel : Nat) (ws : List Window),
    (∀ w ∈ ws, w.alo ≤ w.ahi ∧ w.blo ≤ w.bhi ∧ w.bhi ≤ b.length) →
    measureStack ws ≤ fuel →
    (processStackFuel a b fuel ws).Perm
      (ws.map (fun w => inorderFuel a b (sizeW w + 1) w)).flatten := by
  intro fuel
  induction fuel with
  | zero =>
      intro ws hv hm
      have hnil : ws = [] := by
        cases ws with
        | nil => rfl
        | cons w rest =>
            rw [measureStack_cons] at hm
            omega
      subst hnil
      exact List.Perm.refl _
  | succ fuel ih =>
      intro ws hv hm
      cases ws with
      | nil => exact List.Perm.refl _
      | cons w rest =>
          obtain ⟨hw1, hw2, hw3⟩ := hv w (List.mem_cons_self w rest)
          rw [processStack_succ]
          rw [measureStack_cons] at hm
          rcases hflm : find_longest_match a b w.alo w.ahi w.blo w.bhi
            with ⟨mi, mj, mn⟩
          have hms := flm_spec a b w.alo w.ahi w.blo w.bhi hw1 hw2 hw3
          rw [hflm] at hms
          simp only [] at hms ⊢
          obtain ⟨hm1, hm2, hm3, hm4, hm5⟩ := hms
          rw [List.map_cons, List.flatten_cons]
          by_cases hn : mn = 0
          · rw [if_pos hn]
            have hIno : inorderFuel a b (sizeW w + 1) w = [] := by
              rw [inorder_succ, hflm]
              simp only []
              rw [if_pos hn]
            rw [hIno, List.nil_append]
            exact ih rest (fun x hx => hv x (List.mem_cons_of_mem w hx))
              (by omega)
          · rw [if_neg hn]
            have hIno : inorderFuel a b (sizeW w + 1) w =
                (if w.alo < mi ∧ w.blo < mj then
                  inorderFuel a b (sizeW ⟨w.alo, mi, w.blo, mj⟩ + 1)
                    ⟨w.alo, mi, w.blo, mj⟩ else []) ++
                DiffMatch.mk mi mj mn ::
                (if mi + mn < w.ahi ∧ mj + mn < w.bhi then
                  inorderFuel a b
                    (sizeW ⟨mi + mn, w.ahi, mj + mn, w.bhi⟩ + 1)
                    ⟨mi + mn, w.ahi, mj + mn, w.bhi⟩ else []) := by
              rw [inorder_succ, hflm]
              simp only []
              rw [if_neg hn]
              congr 1
              · by_cases hc : w.alo < mi ∧ w.blo < mj
                · rw [if_pos hc, if_pos hc]
                  exact inorder_fuel_irrel a b (sizeW ⟨w.alo, mi, w.blo, mj⟩)
                    ⟨w.alo, mi, w.blo, mj⟩ (sizeW w)
                    (sizeW ⟨w.alo, mi, w.blo, mj⟩ + 1)
                    (le_refl _)
                    (by unfold sizeW; simp only []; omega)
                    (by omega)
                    (by simp only []; omega) (by simp only []; omega)
                    (by simp only []; omega)
                · rw [if_neg hc, if_neg hc]
              · congr 1
                by_cases hc : mi + mn < w.ahi ∧ mj + mn < w.bhi
                · rw [if_pos hc, if_pos hc]
                  exact inorder_fuel_irrel a b
                    (sizeW ⟨mi + mn, w.ahi, mj + mn, w.bhi⟩)
                    ⟨mi + mn, w.ahi, mj + mn, w.bhi⟩ (sizeW w)
                    (sizeW ⟨mi + mn, w.ahi, mj + mn, w.bhi⟩ + 1)
                    (le_refl _)
                    (by unfold sizeW; simp only []; omega)
                    (by omega)
                    (by simp only []; omega) (by simp only []; omega)
                    (by simp only []; omega)
                · rw [if_neg hc, if_neg hc]
            rw [hIno]
            have hvR : ∀ x ∈ (if mi + mn < w.ahi ∧ mj + mn < w.bhi then
                [Window.mk (mi + mn) w.ahi (mj + mn) w.bhi] else []) ++
                (if w.alo < mi ∧ w.blo < mj then
                [Window.mk w.alo mi w.blo mj] else []) ++ rest,
                x.alo ≤ x.ahi ∧ x.blo ≤ x.bhi ∧ x.bhi ≤ b.length := by
              intro x hx
              rw [List.mem_append, List.mem_append] at hx
              rcases hx with (hx | hx) | hx
              · by_cases hc : mi + mn < w.ahi ∧ mj + mn < w.bhi
                · rw [if_pos hc, List.mem_singleton] at hx
                  subst hx
                  exact ⟨by simp only []; omega, by simp only []; omega,
                    by simp only []; omega⟩
                · rw [if_neg hc] at hx
                  exact absurd hx (List.not_mem_nil x)
              · by_cases hc : w.alo < mi ∧ w.blo < mj
                · rw [if_pos hc, List.mem_singleton] at hx
                  subst hx
                  exact ⟨by simp only []; omega, by simp only []; omega,
                    by simp only []; omega⟩
                · rw [if_neg hc] at hx
                  exact absurd hx (List.not_mem_nil x)
              · exact hv x (List.mem_cons_of_mem w hx)
            have hmeasR : measureStack
                ((if mi + mn < w.ahi ∧ mj + mn < w.bhi then
                  [Window.mk (mi + mn) w.ahi (mj + mn) w.bhi] else []) ++
                 (if w.alo < mi ∧ w.blo < mj then
                  [Window.mk w.alo mi w.blo mj] else []) ++ rest) ≤ fuel := by
              rw [measureStack_append, measureStack_append]
              have e1 : measureStack (if mi + mn < w.ahi ∧ mj + mn < w.bhi
                  then [Window.mk (mi + mn) w.ahi (mj + mn) w.bhi] else []) ≤
                  (w.ahi - (mi + mn)) + (w.bhi - (mj + mn)) + 1 := by
                by_cases hc : mi + mn < w.ahi ∧ mj + mn < w.bhi
                · rw [if_pos hc, measureStack_cons]
                  unfold measureStack sizeW
                  simp only [List.map_nil, List.sum_nil]
                  omega
                · rw [if_neg hc]
                  unfold measureStack
                  simp only [List.map_nil, List.sum_nil]
                  omega
              have e2 : measureStack (if w.alo < mi ∧ w.blo < mj
                  then [Window.mk w.alo mi w.blo mj] else []) ≤
                  (mi - w.alo) + (mj - w.blo) + 1 := by
                by_cases hc : w.alo < mi ∧ w.blo < mj
                · rw [if_pos hc, measureStack_cons]
                  unfold measureStack sizeW
                  simp only [List.map_nil, List.sum_nil]
                  omega
                · rw [if_neg hc]
                  unfold measureStack
                  simp only [List.map_nil, List.sum_nil]
                  omega
              unfold sizeW at hm
              omega
            have hperm := ih _ hvR hmeasR
            have hjoin : (((if mi + mn < w.ahi ∧ mj + mn < w.bhi then
                  [Window.mk (mi + mn) w.ahi (mj + mn) w.bhi] else []) ++
                (if w.alo < mi ∧ w.blo < mj then
                  [Window.mk w.alo mi w.blo mj] else []) ++ rest).map
                  (fun w => inorderFuel a b (sizeW w + 1) w)).flatten =
                (if mi + mn < w.ahi ∧ mj + mn < w.bhi then
                  inorderFuel a b
                    (sizeW ⟨mi + mn, w.ahi, mj + mn, w.bhi⟩ + 1)
                    ⟨mi + mn, w.ahi, mj + mn, w.bhi⟩ else []) ++
                (if w.alo < mi ∧ w.blo < mj then
                  inorderFuel a b (sizeW ⟨w.alo, mi, w.blo, mj⟩ + 1)
                    ⟨w.alo, mi, w.blo, mj⟩ else []) ++
                (rest.map (fun w => inorderFuel a b (sizeW w + 1) w)).flatten :=
              by
              rw [List.map_append, List.map_append, List.flatten_append,
                List.flatten_append]
              congr 2
              · by_cases hc : mi + mn < w.ahi ∧ mj + mn < w.bhi
                · rw [if_pos hc, if_pos hc]
                  simp
                · rw [if_neg hc, if_neg hc]
                  simp
              · by_cases hc : w.alo < mi ∧ w.blo < mj
                · rw [if_pos hc, if_pos hc]
                  simp
                · rw [if_neg hc, if_neg hc]
                  simp
            rw [hjoin] at hperm
            refine List.Perm.trans (List.Perm.cons _ hperm) ?_
            rw [List.append_assoc]
            have hmid : (DiffMatch.mk mi mj mn) ::
                ((if mi + mn < w.ahi ∧ mj + mn < w.bhi then
                  inorderFuel a b
                    (sizeW ⟨mi + mn, w.ahi, mj + mn, w.bhi⟩ + 1)
                    ⟨mi + mn, w.ahi, mj + mn, w.bhi⟩ else []) ++
                ((if w.alo < mi ∧ w.blo < mj then
                  inorderFuel a b (sizeW ⟨w.alo, mi, w.blo, mj⟩ + 1)
                    ⟨w.alo, mi, w.blo, mj⟩ else []) ++
                (rest.map (fun w => inorderFuel a b (sizeW w + 1) w)).flatten))
                = ((DiffMatch.mk mi mj mn) ::
                  ((if mi + mn < w.ahi ∧ mj + mn < w.bhi then
                    inorderFuel a b
                      (sizeW ⟨mi + mn, w.ahi, mj + mn, w.bhi⟩ + 1)
                      ⟨mi + mn, w.ahi, mj + mn, w.bhi⟩ else []) ++
                  (if w.alo < mi ∧ w.blo < mj then
                    inorderFuel a b (sizeW ⟨w.alo, mi, w.blo, mj⟩ + 1)
                      ⟨w.alo, mi, w.blo, mj⟩ else []))) ++
                (rest.map (fun w => inorderFuel a b (sizeW w + 1) w)).flatten :=
              by
              rw [List.cons_append, List.append_assoc]
            rw [hmid]
            refine List.Perm.append_right _ ?_
            refine List.Perm.trans (List.Perm.cons _
              (List.perm_append_comm)) ?_
            exact List.perm_middle.symm

theorem blockLe_total (m1 m2 : DiffMatch) : blockLe m1 m2 ∨ blockLe m2 m1 := by
  unfold blockLe
  omega

theorem blockLe_trans (x y z : DiffMatch) (h1 : blockLe x y)
    (h2 : blockLe y z) : blockLe x z := by
  unfold blockLe at h1 h2 ⊢
  omega

theorem blockLe_antisymm_thm (m1 m2 : DiffMatch) (h1 : blockLe m1 m2)
    (h2 : blockLe m2 m1) : m1 = m2 := by
  obtain ⟨i1, j1, n1⟩ := m1
  obtain ⟨i2, j2, n2⟩ := m2
  unfold blockLe at h1 h2
  simp only [] at h1 h2
  simp only [DiffMatch.mk.injEq]
  omega

theorem gapRel_trans_thm (x y z : DiffMatch) (h1 : gapRel x y)
    (h2 : gapRel y z) : gapRel x z := by
  unfold gapRel at h1 h2 ⊢
  omega

theorem gapRel_blockLe (x y : DiffMatch) (h : gapRel x y) : blockLe x y := by
  unfold gapRel at h
  unfold blockLe
  omega

theorem insertBlock_perm (x : DiffMatch) :
    ∀ l, (insertBlock x l).Perm (x :: l)
  | [] => List.Perm.refl _
  | y :: ys => by
      unfold insertBlock
      split
      · exact ((insertBlock_perm x ys).cons y).trans (List.Perm.swap x y ys)
      · exact List.Perm.refl _

theorem insertBlock_sorted (x : DiffMatch) :
    ∀ l, List.Sorted blockLe l → List.Sorted blockLe (insertBlock x l)
  | [], h => by
      unfold insertBlock
      exact List.sorted_singleton x
  | y :: ys, h => by
      have hparts := List.sorted_cons.mp h
      unfold insertBlock
      split
      · rename_i hyx
        rw [List.sorted_cons]
        constructor
        · intro z hz
          have hz' := (insertBlock_perm x ys).mem_iff.mp hz
          rcases List.mem_cons.mp hz' with hz' | hz'
          · subst hz'
            exact hyx
          · exact hparts.1 z hz'
        · exact insertBlock_sorted x ys hparts.2
      · rename_i hyx
        rw [List.sorted_cons]
        constructor
        · intro z hz
          have hxy : blockLe x y := (blockLe_total x y).resolve_right hyx
          rcases List.mem_cons.mp hz with hz | hz
          · subst hz
            exact hxy
          · exact blockLe_trans x y z hxy (hparts.1 z hz)
        · exact h

theorem sortBlocks_perm : ∀ l, (sortBlocks l).Perm l
  | [] => List.Perm.refl _
  | x :: xs => by
      unfold sortBlocks
      exact (insertBlock_perm x (sortBlocks xs)).trans
        ((sortBlocks_perm xs).cons x)

theorem sortBlocks_sorted : ∀ l, List.Sorted blockLe (sortBlocks l)
  | [] => List.sorted_nil
  | x :: xs => by
      unfold sortBlocks
      exact insertBlock_sorted x (sortBlocks xs) (sortBlocks_sorted xs)

theorem sorted_raw {α : Type} [DecidableEq α] (a b : List α) :
    sortBlocks (processStackFuel a b (a.length + b.length + 1)
      [⟨0, a.length, 0, b.length⟩]) =
    inorderFuel a b (sizeW ⟨0, a.length, 0, b.length⟩ + 1)
      ⟨0, a.length, 0, b.length⟩ := by
  haveI : IsAntisymm DiffMatch blockLe := ⟨blockLe_antisymm_thm⟩
  have hgood := inorder_good a b (sizeW ⟨0, a.length, 0, b.length⟩)
    ⟨0, a.length, 0, b.length⟩ (sizeW ⟨0, a.length, 0, b.length⟩ + 1)
    (le_refl _) (Nat.lt_succ_self _) (by simp only []; omega)
    (by simp only []; omega) (by simp only []; exact le_refl _)
  have hperm : (sortBlocks (processStackFuel a b (a.length + b.length + 1)
      [⟨0, a.length, 0, b.length⟩])).Perm
      (inorderFuel a b (sizeW ⟨0, a.length, 0, b.length⟩ + 1)
        ⟨0, a.length, 0, b.length⟩) := by
    refine (sortBlocks_perm _).trans ?_
    refine (stack_perm a b (a.length + b.length + 1)
      [⟨0, a.length, 0, b.length⟩] ?_ ?_).trans ?_
    · intro w hw
      rw [List.mem_singleton] at hw
      subst hw
      exact ⟨by simp only []; omega, by simp only []; omega,
        by simp only []; exact le_refl _⟩
    · rw [measureStack_cons]
      unfold measureStack sizeW
      simp only [List.map_nil, List.sum_nil]
      omega
    · rw [List.map_cons, List.map_nil, List.flatten_cons, List.flatten_nil,
        List.append_nil]
  have hs1 : List.Sorted blockLe (sortBlocks (processStackFuel a b
      (a.length + b.length + 1) [⟨0, a.length, 0, b.length⟩])) :=
    sortBlocks_sorted _
  have hs2 : List.Sorted blockLe (inorderFuel a b
      (sizeW ⟨0, a.length, 0, b.length⟩ + 1)
      ⟨0, a.length, 0, b.length⟩) := by
    haveI : IsTrans DiffMatch gapRel := ⟨gapRel_trans_thm⟩
    have hpw := List.chain'_iff_pairwise.mp hgood.2
    exact hpw.imp (fun h => gapRel_blockLe _ _ h)
  exact List.eq_of_perm_of_sorted hperm hs1 hs2

theorem collapse_spec {α : Type} (a b : List α) :
    ∀ (bs : List DiffMatch) (i1 j1 k1 : Nat),
    List.Chain' gapRel bs →
    (∀ m ∈ bs, 1 ≤ m.n ∧ m.i + m.n ≤ a.length ∧ m.j + m.n ≤ b.length ∧
      IsMatchAt a b m.i m.j m.n) →
    (∀ m ∈ bs.head?, i1 + k1 ≤ m.i ∧ j1 + k1 ≤ m.j) →
    IsMatchAt a b i1 j1 k1 →
    i1 + k1 ≤ a.length → j1 + k1 ≤ b.length →
    (∀ x ∈ collapseBlocks bs i1 j1 k1,
      IsMatchAt a b x.i x.j x.n ∧ x.i + x.n ≤ a.length ∧
      x.j + x.n ≤ b.length) ∧
    List.Chain' gapRel (collapseBlocks bs i1 j1 k1) ∧
    (∀ x ∈ (collapseBlocks bs i1 j1 k1).head?, i1 ≤ x.i ∧ j1 ≤ x.j)
  | [], i1, j1, k1, hch, hmem, hhead, hrun, hba, hbb => by
      unfold collapseBlocks
      split
      · refine ⟨?_, ?_, ?_⟩
        · intro x hx
          rw [List.mem_singleton] at hx
          subst hx
          exact ⟨hrun, hba, hbb⟩
        · exact List.chain'_singleton _
        · intro x hx
          have hx' : x = DiffMatch.mk i1 j1 k1 := by
            rw [List.head?_cons] at hx
            exact (Option.mem_some_iff.mp hx).symm
          subst hx'
          exact ⟨le_refl _, le_refl _⟩
      · exact ⟨fun x hx => absurd hx (List.not_mem_nil x), List.chain'_nil,
          fun x hx => by simp at hx⟩
  | m :: ms, i1, j1, k1, hch, hmem, hhead, hrun, hba, hbb => by
      obtain ⟨hn1, hia, hjb, hmm⟩ := hmem m (List.mem_cons_self m ms)
      have hchp := List.chain'_cons'.mp hch
      have hhm := hhead m (by rw [List.head?_cons]; exact rfl)
      unfold collapseBlocks
      by_cases habut : i1 + k1 = m.i ∧ j1 + k1 = m.j
      · rw [if_pos habut]
        have hrun' : IsMatchAt a b i1 j1 (k1 + m.n) := by
          refine matchAt_concat hrun ?_
          rw [habut.1, habut.2]
          exact hmm
        have hrec := collapse_spec a b ms i1 j1 (k1 + m.n) hchp.2
          (fun x hx => hmem x (List.mem_cons_of_mem m hx))
          (fun x hx => by
            have := hchp.1 x hx
            unfold gapRel at this
            omega)
          hrun' (by omega) (by omega)
        exact hrec
      · rw [if_neg habut]
        have hrec := collapse_spec a b ms m.i m.j m.n hchp.2
          (fun x hx => hmem x (List.mem_cons_of_mem m hx))
          (fun x hx => hchp.1 x hx)
          hmm hia hjb
        by_cases hk : k1 > 0
        · rw [if_pos hk]
          refine ⟨?_, ?_, ?_⟩
          · intro x hx
            rcases List.mem_cons.mp hx with hx | hx
            · subst hx
              exact ⟨hrun, hba, hbb⟩
            · exact hrec.1 x hx
          · rw [List.chain'_cons']
            refine ⟨?_, hrec.2.1⟩
            intro y hy
            have := hrec.2.2 y hy
            unfold gapRel
            simp only []
            omega
          · intro x hx
            have hx' : x = DiffMatch.mk i1 j1 k1 := by
              rw [List.head?_cons] at hx
              exact (Option.mem_some_iff.mp hx).symm
            subst hx'
            exact ⟨le_refl _, le_refl _⟩
        · rw [if_neg hk]
          refine ⟨hrec.1, hrec.2.1, ?_⟩
          intro x hx
          have := hrec.2.2 x hx
          omega

theorem get_matching_blocks_good {α : Type} [DecidableEq α] (a b : List α) :
    GoodBlocks a b (get_matching_blocks a b) := by
  unfold get_matching_blocks GoodBlocks
  simp only []
  rw [sorted_raw]
  have hgood := inorder_good a b (sizeW ⟨0, a.length, 0, b.length⟩)
    ⟨0, a.length, 0, b.length⟩ (sizeW ⟨0, a.length, 0, b.length⟩ + 1)
    (le_refl _) (Nat.lt_succ_self _) (by simp only []; omega)
    (by simp only []; omega) (by simp only []; exact le_refl _)
  have hcoll := collapse_spec a b
    (inorderFuel a b (sizeW ⟨0, a.length, 0, b.length⟩ + 1)
      ⟨0, a.length, 0, b.length⟩) 0 0 0 hgood.2
    (fun x hx => by
      have := hgood.1 x hx
      simp only [] at this
      exact ⟨this.2.2.2.2.1, this.2.1, this.2.2.2.1, this.2.2.2.2.2⟩)
    (fun x hx => ⟨Nat.zero_le _, Nat.zero_le _⟩)
    (matchAt_zero a b 0 0) (Nat.zero_le _) (Nat.zero_le _)
  refine ⟨?_, ?_, ?_⟩
  · rw [List.chain'_append]
    refine ⟨hcoll.2.1, List.chain'_singleton _, ?_⟩
    intro x hx y hy
    have hxm := hcoll.1 x (List.mem_of_mem_getLast? hx)
    have hy' : y = DiffMatch.mk a.length b.length 0 := by
      rw [List.head?_cons] at hy
      exact (Option.mem_some_iff.mp hy).symm
    subst hy'
    unfold gapRel
    simp only []
    omega
  · rw [List.getLast?_concat]
  · intro x hx
    rw [List.mem_append] at hx
    rcases hx with hx | hx
    · have := hcoll.1 x hx
      exact ⟨this.1, this.2.1, this.2.2⟩
    · rw [List.mem_singleton] at hx
      subst hx
      exact ⟨matchAt_zero a b _ _, by simp only []; omega,
        by simp only []; omega⟩

theorem opcodesLoop_cons (m : DiffMatch) (ms : List DiffMatch) (i j : Nat) :
    opcodesLoop (m :: ms) i j =
      (if i < m.i ∧ j < m.j then [⟨OpcodeTag.replace, i, m.i, j, m.j⟩]
       else if i < m.i then [⟨OpcodeTag.delete, i, m.i, j, m.j⟩]
       else if j < m.j then [⟨OpcodeTag.insert, i, m.i, j, m.j⟩]
       else []) ++
      (if m.n > 0 then [⟨OpcodeTag.equal, m.i, m.i + m.n, m.j, m.j + m.n⟩]
       else []) ++
      opcodesLoop ms (m.i + m.n) (m.j + m.n) := rfl

theorem opcodes_spec {α : Type} (a b : List α) :
    ∀ (bs : List DiffMatch) (i j : Nat),
    List.Chain' gapRel bs →
    (∀ m ∈ bs, IsMatchAt a b m.i m.j m.n ∧ m.i + m.n ≤ a.length ∧
      m.j + m.n ≤ b.length) →
    bs.getLast? = some ⟨a.length, b.length, 0⟩ →
    (∀ m ∈ bs.head?, i ≤ m.i ∧ j ≤ m.j) →
    (((opcodesLoop bs i j).filter (fun op => op.tag ≠ OpcodeTag.equal)) = []
      → i ≤ a.length ∧ j ≤ b.length ∧ a.length - i = b.length - j ∧
        IsMatchAt a b i j (a.length - i)) ∧
    (∀ f l, ((opcodesLoop bs i j).filter
        (fun op => op.tag ≠ OpcodeTag.equal)).head? = some f →
      ((opcodesLoop bs i j).filter
        (fun op => op.tag ≠ OpcodeTag.equal)).getLast? = some l →
      i ≤ f.i1 ∧ j ≤ f.j1 ∧ f.i1 - i = f.j1 - j ∧ f.i1 ≤ a.length ∧
      f.j1 ≤ b.length ∧ IsMatchAt a b i j (f.i1 - i) ∧
      f.i1 ≤ l.i2 ∧ f.j1 ≤ l.j2 ∧ l.i2 ≤ a.length ∧ l.j2 ≤ b.length ∧
      a.length - l.i2 = b.length - l.j2 ∧
      IsMatchAt a b l.i2 l.j2 (a.length - l.i2))
  | [], i, j, hch, hmem, hlast, hhead => by
      simp at hlast
  | m :: ms, i, j, hch, hmem, hlast, hhead => by
      obtain ⟨hmm, hia, hjb⟩ := hmem m (List.mem_cons_self m ms)
      have hchp := List.chain'_cons'.mp hch
      have hhm := hhead m (by rw [List.head?_cons]; exact rfl)
      simp only [List.head?_cons, Option.mem_some_iff] at hhm
      rw [opcodesLoop_cons, List.filter_append, List.filter_append]
      have hEQ : (if m.n > 0 then
          [Opcode.mk OpcodeTag.equal m.i (m.i + m.n) m.j (m.j + m.n)]
          else []).filter (fun op => op.tag ≠ OpcodeTag.equal) = [] := by
        by_cases hq : m.n > 0
        · rw [if_pos hq]; rfl
        · rw [if_neg hq]; rfl
      rw [hEQ, List.append_nil]
      -- residual facts for the recursive cursor
      have hres : (((opcodesLoop ms (m.i + m.n) (m.j + m.n)).filter
            (fun op => op.tag ≠ OpcodeTag.equal)) = []
          → m.i + m.n ≤ a.length ∧ m.j + m.n ≤ b.length ∧
            a.length - (m.i + m.n) = b.length - (m.j + m.n) ∧
            IsMatchAt a b (m.i + m.n) (m.j + m.n)
              (a.length - (m.i + m.n))) ∧
          (∀ f l, ((opcodesLoop ms (m.i + m.n) (m.j + m.n)).filter
              (fun op => op.tag ≠ OpcodeTag.equal)).head? = some f →
            ((opcodesLoop ms (m.i + m.n) (m.j + m.n)).filter
              (fun op => op.tag ≠ OpcodeTag.equal)).getLast? = some l →
            m.i + m.n ≤ f.i1 ∧ m.j + m.n ≤ f.j1 ∧
            f.i1 - (m.i + m.n) = f.j1 - (m.j + m.n) ∧ f.i1 ≤ a.length ∧
            f.j1 ≤ b.length ∧
            IsMatchAt a b (m.i + m.n) (m.j + m.n) (f.i1 - (m.i + m.n)) ∧
            f.i1 ≤ l.i2 ∧ f.j1 ≤ l.j2 ∧ l.i2 ≤ a.length ∧ l.j2 ≤ b.length ∧
            a.length - l.i2 = b.length - l.j2 ∧
            IsMatchAt a b l.i2 l.j2 (a.length - l.i2)) := by
        cases ms with
        | nil =>
            have hsent : m = DiffMatch.mk a.length b.length 0 := by
              simp at hlast
              exact hlast
            constructor
            · intro _
              rw [hsent]
              simp only []
              refine ⟨by omega, by omega, by omega, ?_⟩
              intro t ht
              omega
            · intro f l hf hl
              rw [show opcodesLoop ([] : List DiffMatch) (m.i + m.n)
                (m.j + m.n) = [] from rfl] at hf
              simp at hf
        | cons m2 ms2 =>
            refine opcodes_spec a b (m2 :: ms2) (m.i + m.n) (m.j + m.n)
              hchp.2 (fun x hx => hmem x (List.mem_cons_of_mem m hx)) ?_ ?_
            · simp at hlast ⊢
              exact hlast
            · intro x hx
              have := hchp.1 x hx
              unfold gapRel at this
              omega
      -- the gap list after filtering
      have hG : ∃ G : List Opcode,
          ((if i < m.i ∧ j < m.j then
              [Opcode.mk OpcodeTag.replace i m.i j m.j]
            else if i < m.i then [Opcode.mk OpcodeTag.delete i m.i j m.j]
            else if j < m.j then [Opcode.mk OpcodeTag.insert i m.i j m.j]
            else []).filter (fun op => op.tag ≠ OpcodeTag.equal) = G) ∧
          ((G = [] ∧ i = m.i ∧ j = m.j) ∨
            (∃ tag, G = [Opcode.mk tag i m.i j m.j])) := by
        by_cases h1 : i < m.i ∧ j < m.j
        · rw [if_pos h1]
          exact ⟨[Opcode.mk OpcodeTag.replace i m.i j m.j], rfl,
            Or.inr ⟨OpcodeTag.replace, rfl⟩⟩
        · rw [if_neg h1]
          by_cases h2 : i < m.i
          · rw [if_pos h2]
            exact ⟨[Opcode.mk OpcodeTag.delete i m.i j m.j], rfl,
              Or.inr ⟨OpcodeTag.delete, rfl⟩⟩
          · rw [if_neg h2]
            by_cases h3 : j < m.j
            · rw [if_pos h3]
              exact ⟨[Opcode.mk OpcodeTag.insert i m.i j m.j], rfl,
                Or.inr ⟨OpcodeTag.insert, rfl⟩⟩
            · rw [if_neg h3]
              exact ⟨[], rfl, Or.inl ⟨rfl, by omega, by omega⟩⟩
      obtain ⟨G, hGe, hGcase⟩ := hG
      rw [hGe]
      rcases hGcase with ⟨hGnil, hieq, hjeq⟩ | ⟨tag, hGone⟩
      · -- no gap opcode: the cursor sits at the block's corner
        subst hGnil
        rw [List.nil_append]
        subst hieq
        subst hjeq
        constructor
        · intro hne
          obtain ⟨hr1, hr2, hr3, hr4⟩ := hres.1 hne
          refine ⟨by omega, by omega, by omega, ?_⟩
          have hcat := matchAt_concat hmm hr4
          have harith : m.n + (a.length - (m.i + m.n)) = a.length - m.i := by
            omega
          rw [harith] at hcat
          exact hcat
        · intro f l hf hl
          obtain ⟨hq1, hq2, hq3, hq4, hq5, hq6, hq7, hq8, hq9, hq10, hq11,
            hq12⟩ := hres.2 f l hf hl
          refine ⟨by omega, by omega, by omega, hq4, hq5, ?_, hq7, hq8, hq9,
            hq10, hq11, hq12⟩
          have hcat := matchAt_concat hmm hq6
          have harith : m.n + (f.i1 - (m.i + m.n)) = f.i1 - m.i := by
            omega
          rw [harith] at hcat
          exact hcat
      · -- one gap opcode
        subst hGone
        rw [List.cons_append]
        simp only [List.nil_append]
        constructor
        · intro hne
          cases hne
        · intro f l hf hl
          rw [List.head?_cons, Option.some_inj] at hf
          subst hf
          cases hrec : ((opcodesLoop ms (m.i + m.n) (m.j + m.n)).filter
              (fun op => op.tag ≠ OpcodeTag.equal)) with
          | nil =>
              rw [hrec] at hl
              simp at hl
              obtain ⟨hr1, hr2, hr3, hr4⟩ := hres.1 hrec
              subst hl
              simp only []
              refine ⟨le_refl _, le_refl _, by omega, by omega, by omega,
                ?_, by omega, by omega, by omega, by omega, by omega, ?_⟩
              · rw [Nat.sub_self]
                exact matchAt_zero a b i j
              · have hcat := matchAt_concat hmm hr4
                have harith : m.n + (a.length - (m.i + m.n)) =
                    a.length - m.i := by omega
                rw [harith] at hcat
                exact hcat
          | cons f2 t2 =>
              rw [hrec] at hl
              rw [List.getLast?_cons_cons] at hl
              rw [← hrec] at hl
              have hf2 : ((opcodesLoop ms (m.i + m.n) (m.j + m.n)).filter
                  (fun op => op.tag ≠ OpcodeTag.equal)).head? = some f2 := by
                rw [hrec, List.head?_cons]
              obtain ⟨hq1, hq2, hq3, hq4, hq5, hq6, hq7, hq8, hq9, hq10,
                hq11, hq12⟩ := hres.2 f2 l hf2 hl
              simp only []
              refine ⟨le_refl _, le_refl _, by omega, by omega, by omega,
                ?_, by omega, by omega, hq9, hq10, hq11, hq12⟩
              rw [Nat.sub_self]
              exact matchAt_zero a b i j

theorem take_eq_of_matchAt {α : Type} (a b : List α) (k : Nat)
    (h : IsMatchAt a b 0 0 k) : a.take k = b.take k := by
  apply List.ext_get?
  intro t
  by_cases ht : t < k
  · rw [List.get?_take ht, List.get?_take ht]
    have h2 := (h t ht).2
    simpa using h2
  · have h1 : (a.take k).length ≤ t := by
      rw [List.length_take]
      omega
    have h2 : (b.take k).length ≤ t := by
      rw [List.length_take]
      omega
    rw [List.get?_eq_none.mpr h1, List.get?_eq_none.mpr h2]

theorem drop_eq_of_matchAt {α : Type} (a b : List α) (i j : Nat)
    (hi : i ≤ a.length) (hj : j ≤ b.length)
    (hlen : a.length - i = b.length - j)
    (h : IsMatchAt a b i j (a.length - i)) : a.drop i = b.drop j := by
  apply List.ext_get?
  intro t
  rw [List.get?_drop a i t, List.get?_drop b j t]
  by_cases ht : t < a.length - i
  · exact (h t ht).2
  · have h1 : a.length ≤ i + t := by omega
    have h2 : b.length ≤ j + t := by omega
    rw [List.get?_eq_none.mpr h1, List.get?_eq_none.mpr h2]

theorem eq_of_matchAt_full {α : Type} (a b : List α)
    (hlen : a.length = b.length) (h : IsMatchAt a b 0 0 (a.length - 0)) :
    a = b := by
  have := drop_eq_of_matchAt a b 0 0 (Nat.zero_le _) (Nat.zero_le _)
    (by omega) h
  simpa using this

theorem splice_eq (b : List String) (j1 j2 : Nat) (h12 : j1 ≤ j2) :
    b.take j1 ++ ((b.drop j1).take (j2 - j1) ++ b.drop j2) = b := by
  have hsplit : (b.drop j1).take (j2 - j1) ++ (b.drop j1).drop (j2 - j1) =
      b.drop j1 := List.take_append_drop (j2 - j1) (b.drop j1)
  have hdd : (b.drop j1).drop (j2 - j1) = b.drop j2 := by
    rw [List.drop_drop]
    congr 1
    omega
  rw [hdd] at hsplit
  rw [hsplit]
  exact List.take_append_drop j1 b

theorem processStack_nil {α : Type} [DecidableEq α] (a b : List α) :
    ∀ fuel, processStackFuel a b fuel [] = []
  | 0 => rfl
  | _ + 1 => rfl

theorem collapseBlocks_nil (i1 j1 k1 : Nat) :
    collapseBlocks [] i1 j1 k1 =
      if k1 > 0 then [⟨i1, j1, k1⟩] else [] := rfl

theorem collapseBlocks_cons (m : DiffMatch) (ms : List DiffMatch)
    (i1 j1 k1 : Nat) :
    collapseBlocks (m :: ms) i1 j1 k1 =
      if i1 + k1 = m.i ∧ j1 + k1 = m.j then
        collapseBlocks ms i1 j1 (k1 + m.n)
      else if k1 > 0 then ⟨i1, j1, k1⟩ :: collapseBlocks ms m.i m.j m.n
      else collapseBlocks ms m.i m.j m.n := rfl

theorem get_matching_blocks_self {α : Type} [DecidableEq α] (a : List α) :
    get_matching_blocks a a =
      (if a.length > 0 then [⟨0, 0, a.length⟩] else []) ++
        [⟨a.length, a.length, 0⟩] := by
  unfold get_matching_blocks
  simp only []
  have hraw : processStackFuel a a (a.length + a.length + 1)
      [⟨0, a.length, 0, a.length⟩] =
      if a.length > 0 then [⟨0, 0, a.length⟩] else [] := by
    rw [processStack_succ]
    simp only []
    rw [flm_diag]
    simp only []
    by_cases h0 : a.length = 0
    · rw [if_pos h0, processStack_nil]
      rw [if_neg (by omega)]
    · rw [if_neg h0]
      rw [if_neg (by omega), if_neg (by omega)]
      rw [show ([] : List Window) ++ [] ++ [] = [] from rfl]
      rw [processStack_nil]
      rw [if_pos (by omega)]
  rw [hraw]
  by_cases h0 : a.length = 0
  · rw [if_neg (by omega)]
    rfl
  · rw [if_pos (by omega)]
    have hsort : sortBlocks [(⟨0, 0, a.length⟩ : DiffMatch)] =
        [⟨0, 0, a.length⟩] := rfl
    rw [hsort]
    have hcoll : collapseBlocks [(⟨0, 0, a.length⟩ : DiffMatch)] 0 0 0 =
        [⟨0, 0, a.length⟩] := by
      rw [collapseBlocks_cons]
      rw [if_pos (show 0 + 0 = (⟨0, 0, a.length⟩ : DiffMatch).i ∧
        0 + 0 = (⟨0, 0, a.length⟩ : DiffMatch).j from ⟨rfl, rfl⟩)]
      rw [collapseBlocks_nil]
      rw [if_pos (by simp only []; omega)]
      simp
    rw [hcoll]

theorem get_opcodes_self_filter {α : Type} [DecidableEq α] (a : List α) :
    (get_opcodes a a).filter (fun op => op.tag ≠ OpcodeTag.equal) = [] := by
  unfold get_opcodes
  rw [get_matching_blocks_self]
  by_cases h0 : a.length > 0
  · rw [if_pos h0]
    rw [List.cons_append, List.nil_append]
    rw [opcodesLoop_cons, opcodesLoop_cons]
    simp only []
    rw [if_neg (by omega), if_neg (by omega), if_neg (by omega),
      if_pos h0]
    rw [if_neg (by omega), if_neg (by omega), if_neg (by omega),
      if_neg (by omega)]
    rw [show opcodesLoop [] (a.length + 0) (a.length + 0) = [] from rfl]
    rfl
  · rw [if_neg h0]
    rw [List.nil_append]
    rw [opcodesLoop_cons]
    simp only []
    rw [if_neg (by omega), if_neg (by omega), if_neg (by omega),
      if_neg (by omega)]
    rw [show opcodesLoop [] (a.length + 0) (a.length + 0) = [] from rfl]
    rfl

theorem opcodes_patch (a b : List String) (hne : a ≠ b) :
    ∃ f l t, ((get_opcodes a b).filter
        (fun op => op.tag ≠ OpcodeTag.equal)) = f :: t ∧
      ((get_opcodes a b).filter
        (fun op => op.tag ≠ OpcodeTag.equal)).getLast? = some l ∧
      f.i1 = f.j1 ∧ f.j1 ≤ l.j2 ∧ l.j2 ≤ b.length ∧
      a.take f.i1 ++ ((b.drop f.j1).take (l.j2 - f.j1) ++ a.drop l.i2) =
        b := by
  obtain ⟨hch, hlast, hmem⟩ := get_matching_blocks_good a b
  have hspec := opcodes_spec a b (get_matching_blocks a b) 0 0 hch hmem
    hlast (fun m hm => ⟨Nat.zero_le _, Nat.zero_le _⟩)
  cases hNE : ((get_opcodes a b).filter
      (fun op => op.tag ≠ OpcodeTag.equal)) with
  | nil =>
      exfalso
      have hempty := hspec.1 hNE
      exact hne (eq_of_matchAt_full a b (by omega) (by
        have := hempty.2.2.2
        simpa using this))
  | cons f t =>
      cases hgl : ((f :: t).getLast?) with
      | none => simp at hgl
      | some l =>
          have hf : ((opcodesLoop (get_matching_blocks a b) 0 0).filter
              (fun op => op.tag ≠ OpcodeTag.equal)).head? = some f := by
            rw [show (opcodesLoop (get_matching_blocks a b) 0 0).filter
              (fun op => op.tag ≠ OpcodeTag.equal) =
              (get_opcodes a b).filter
                (fun op => op.tag ≠ OpcodeTag.equal) from rfl, hNE]
            rfl
          have hl : ((opcodesLoop (get_matching_blocks a b) 0 0).filter
              (fun op => op.tag ≠ OpcodeTag.equal)).getLast? = some l := by
            rw [show (opcodesLoop (get_matching_blocks a b) 0 0).filter
              (fun op => op.tag ≠ OpcodeTag.equal) =
              (get_opcodes a b).filter
                (fun op => op.tag ≠ OpcodeTag.equal) from rfl, hNE]
            exact hgl
          obtain ⟨hq1, hq2, hq3, hq4, hq5, hq6, hq7, hq8, hq9, hq10, hq11,
            hq12⟩ := hspec.2 f l hf hl
          have hij : f.i1 = f.j1 := by omega
          refine ⟨f, l, t, rfl, rfl, hij, hq8, hq10, ?_⟩
          have hmatch1 : IsMatchAt a b 0 0 f.j1 := by
            have h6 := hq6
            rw [Nat.sub_zero, hij] at h6
            exact h6
          have htake : a.take f.i1 = b.take f.j1 := by
            rw [hij]
            exact take_eq_of_matchAt a b f.j1 hmatch1
          have hdrop : a.drop l.i2 = b.drop l.j2 :=
            drop_eq_of_matchAt a b l.i2 l.j2 hq9 hq10 hq11 hq12
          rw [htake, hdrop]
          exact splice_eq b f.j1 l.j2 hq8

/-- C2 (amended: the error case triggers exactly when the two strings have
the same line sequence — not the same string, since `str::lines` identifies
`"a"` with `"a\n"`): `compute_changed_block_lines x y` errors when
`rustLines x = rustLines y`, and otherwise returns a changed block whose
replacement, substituted at lines `start_before..end_before` of `x`, yields
exactly the line sequence of `y`. -/
theorem c2_diff_roundtrip (x y : String) :
    (rustLines x = rustLines y →
      compute_changed_block_lines x y = Except.error noOpcodesMsg) ∧
    (rustLines x ≠ rustLines y →
      ∃ blk, compute_changed_block_lines x y = Except.ok blk ∧
        applyChangedBlock (rustLines x) blk = rustLines y) := by
  constructor
  · intro hxy
    unfold compute_changed_block_lines
    simp only []
    rw [hxy]
    rw [get_opcodes_self_filter (rustLines y)]
    rfl
  · intro hne
    obtain ⟨f, l, t, hNE, hl, hij, hjl, hlb, hpatch⟩ :=
      opcodes_patch (rustLines x) (rustLines y) hne
    unfold compute_changed_block_lines
    simp only []
    rw [hNE] at hl
    rw [hNE, hl]
    simp only [List.head?_cons]
    refine ⟨_, rfl, ?_⟩
    unfold applyChangedBlock
    simp only []
    have hmax : max (f.i1 + 1) 1 = f.i1 + 1 := by omega
    rw [hmax, Nat.add_sub_cancel, List.append_assoc]
    exact hpatch

/-- C2's claim as frozen is false: `"a"` and `"a\n"` are different strings,
yet `compute_changed_block_lines` errors on them, because `str::lines`
gives both the line sequence `["a"]`. -/
theorem c2_claim_counterexample :
    compute_changed_block_lines "a" "a\n" = Except.error noOpcodesMsg ∧
    ("a" : String) ≠ "a\n" := by
  constructor
  · decide
  · decide

/-- Witness for C2: both sides of the amended theorem at concrete inputs —
the error case on `"a"`/`"a\n"` (equal line sequences) and the round-trip
case on `"a\nb"`/`"a\nc"`. -/
theorem c2_witness :
    compute_changed_block_lines "a" "a\n" = Except.error noOpcodesMsg ∧
    (∃ blk, compute_changed_block_lines "a\nb" "a\nc" = Except.ok blk ∧
      applyChangedBlock (rustLines "a\nb") blk = rustLines "a\nc") :=
  ⟨(c2_diff_roundtrip "a" "a\n").1 (by decide),
   (c2_diff_roundtrip "a\nb" "a\nc").2 (by decide)⟩
end CrowdPilot
